import Mathlib

/-!
Verification of the maze generator and wall-geometry compiler of the
`minotaur` repository (src/src/index.ts), via a shallow embedding in Lean.

The maze generator (`makeMaze`) is embedded parameterised by the source's
constants `MAZE_SIDE` / `END_HALLWAY_LENGTH` and by the sequence of random
keys drawn by `shuffledForEach` (the source draws one `Math.random()` key per
candidate connection and stably sorts by key; stability matches JS
`Array.prototype.sort`).  Machine numbers: every number the generator
manipulates is a small non-negative integer (bit masks in `{0..3}`, indices
`< side²`) or a negated subtree size, all far below 2⁵³, so JS number
arithmetic is exact and `Nat`/`Int` model it faithfully; the two JS 32-bit
mask operations `m &= ~1` / `m &= ~2` are embedded as `&&&` with the
32-bit constants `0xFFFFFFFE` / `0xFFFFFFFD`.

The wall compiler (`makeWallBlocks`) is embedded over `ℚ`: at the source's
parameters (`WALL_THICKNESS = 1/4`, `DETAIL = 1`) every float the source
computes is an exact binary fraction (quarters, and small integer counts),
all float operations are exact, so exact rational arithmetic is faithful.
-/

namespace Minotaur

/-! ### Constants (src/src/index.ts, `@file constants`) -/

def MAZE_SIDE : Nat := 41

def END_HALLWAY_LENGTH : Nat := 6

def WALL_THICKNESS : ℚ := 1/4

def DETAIL : Nat := 1

def BLOCKS_WEST : Nat := 1

def BLOCKS_SOUTH : Nat := 2

/-- JS `m &= ~BLOCKS_WEST` (32-bit bitwise and with `~1 = 0xFFFFFFFE`). -/
def clearWest (m : Nat) : Nat := m &&& 4294967294

/-- JS `m &= ~BLOCKS_SOUTH` (32-bit bitwise and with `~2 = 0xFFFFFFFD`). -/
def clearSouth (m : Nat) : Nat := m &&& 4294967293

/-! ### The shuffle (`shuffledForEach`)

`shuffledForEach` assigns each index an independent random key and sorts the
indices by key with JS `Array.prototype.sort`, which is stable and sorts
ascending by the comparator `rand[a] - rand[b]`; a stable insertion sort
over an arbitrary integer-valued key sequence models exactly that (any
possible outcome of the float draws is realised by some `keys`). -/

/-- The visiting order of `shuffledForEach` over `n` elements: indices
`0..n-1` stably sorted ascending by their random keys. -/
def shuffledOrder (n : Nat) (keys : Nat → Int) : List Nat :=
  List.insertionSort (fun a b => keys a ≤ keys b) (List.range n)

/-- The sequence of elements `array[originalIndex]` visited by
`shuffledForEach array`. -/
def shuffledSeq (array : List Nat) (keys : Nat → Int) : List Nat :=
  (shuffledOrder array.length keys).filterMap (fun i => array[i]?)

/-! ### Union-find (`makeMaze` internals) -/

/-- `rootOf` from the source, with path compression
(`unionFind[index] = rootOf(parent)` assigns and returns the root).  The
`fuel` argument totalises the JS recursion: every call site passes the
array length, which bounds the parent-chain length on all reachable
(cycle-free) states, so the embedded function agrees with the source
wherever the source terminates. -/
def rootOf : Nat → List Int → Nat → Nat × List Int
  | 0, uf, index => (index, uf)
  | fuel+1, uf, index =>
    let parent := uf.getD index (-1)
    if parent < 0 then (index, uf)
    else
      let r := rootOf fuel uf parent.toNat
      (r.1, r.2.set index (Int.ofNat r.1))

/-- `unionIfDisconnected` from the source: look up both roots (compressing
paths), return `false` if equal, otherwise merge by size (entries of roots
are negated subtree sizes) and return `true`. -/
def unionIfDisconnected (uf : List Int) (aIndex bIndex : Nat) : Bool × List Int :=
  let ra := rootOf uf.length uf aIndex
  let a := ra.1
  let rb := rootOf ra.2.length ra.2 bIndex
  let b := rb.1
  let uf2 := rb.2
  if a = b then (false, uf2)
  else
    let aNegSize := uf2.getD a 0
    let bNegSize := uf2.getD b 0
    if aNegSize < bNegSize then
      (true, (uf2.set a (aNegSize + bNegSize)).set b (Int.ofNat a))
    else
      (true, (uf2.set a (Int.ofNat b)).set b (aNegSize + bNegSize))

/-- A cell in the two centre columns of the first `corridor` rows: the
region of the exit hallway for which `makeMaze` omits west candidates. -/
def corridorCell (side corridor i : Nat) : Prop :=
  (i % side = side/2 ∨ i % side = side/2 + 1) ∧ i < corridor * side

instance (side corridor i : Nat) : Decidable (corridorCell side corridor i) := by
  unfold corridorCell; infer_instance

/-- The `connectionsToCheck` list built by `makeMaze`: for every cell `i` a
south connection `i<<1`, and, unless the cell lies in the exit corridor
region, a west connection `i<<1|1`. -/
def connectionsToCheck (side corridor : Nat) : List Nat :=
  (List.range (side*side)).flatMap (fun i =>
    if ¬corridorCell side corridor i
    then [2*i, 2*i+1]
    else [2*i])

/-- One iteration of the `shuffledForEach` body in `makeMaze`: decode the
connection, skip boundary cells (`isLeftmost` / `isBottom`), otherwise
union with the west / south neighbour and on success clear the
corresponding wall bit. -/
def processConn (side : Nat) (st : List Int × List Nat) (connection : Nat) :
    List Int × List Nat :=
  let uf := st.1
  let maze := st.2
  let index := connection / 2
  if connection % 2 = 1 then
    if index % side = 0 then st
    else
      let u := unionIfDisconnected uf index (index - 1)
      (u.2, if u.1 then maze.set index (clearWest (maze.getD index 0)) else maze)
  else
    if index < side then st
    else
      let u := unionIfDisconnected uf index (index - side)
      (u.2, if u.1 then maze.set index (clearSouth (maze.getD index 0)) else maze)

/-- The mask array before the shuffled pass: every cell `3`, then the
bottom gate `maze[HALF] &= 1`. -/
def initialMaze (side : Nat) : List Nat :=
  let m := List.replicate (side*side) 3
  m.set (side/2) ((m.getD (side/2) 0) &&& 1)

/-- `makeMaze`, parameterised by the source constants (`MAZE_SIDE`,
`END_HALLWAY_LENGTH`) and by the random keys drawn by `shuffledForEach`. -/
def makeMaze (side corridor : Nat) (keys : Nat → Int) : List Nat :=
  let uf0 : List Int := List.replicate (side*side) (-1)
  let conns := connectionsToCheck side corridor
  ((shuffledSeq conns keys).foldl (processConn side) (uf0, initialMaze side)).2

/-- `makeMaze` wrapped in `Except`: the source body performs no parameter
validation and contains no throw path, so the faithful translation always
returns `.ok`.  (The `Except` type only serves to state claims about a
raised error condition.) -/
def makeMazeE (side corridor : Nat) (keys : Nat → Int) : Except String (List Nat) :=
  Except.ok (makeMaze side corridor keys)

/-! ### Specification-side view of the union-find state

`findN` is `rootOf` without path compression (pure); `rootD` fixes the fuel
at the array length, which suffices on well-formed states.  These are proof
tools only; the executable embedding above is what the theorems evaluate. -/

/-- The stored entry of cell `i` (negative at a root, else parent index). -/
def parentOf (uf : List Int) (i : Nat) : Int := uf.getD i (-1)

/-- A root of the union-find forest: its entry is a negated subtree size. -/
def isRoot (uf : List Int) (i : Nat) : Prop := parentOf uf i < 0

instance (uf : List Int) (i : Nat) : Decidable (isRoot uf i) := by
  unfold isRoot; infer_instance

/-- Follow parent links for at most `fuel` steps (no compression). -/
def findN : Nat → List Int → Nat → Nat
  | 0, _, i => i
  | fuel+1, uf, i =>
    let p := uf.getD i (-1)
    if p < 0 then i else findN fuel uf p.toNat

/-- The root of `i`'s class (with fuel = array length, enough on
well-formed states). -/
def rootD (uf : List Int) (i : Nat) : Nat := findN uf.length uf i

/-- Well-formedness of a union-find state: parent links stay in bounds and
every cell reaches a root within `length` steps (no cycles). -/
def WFuf (uf : List Int) : Prop :=
  ∀ i, i < uf.length →
    (0 ≤ parentOf uf i → (parentOf uf i).toNat < uf.length) ∧
    isRoot uf (findN uf.length uf i)

/-- The endpoints of a processed (non-boundary) connection share a root. -/
def connJoined (side : Nat) (uf : List Int) (conn : Nat) : Prop :=
  (conn % 2 = 1 → (conn / 2) % side ≠ 0 → rootD uf (conn / 2) = rootD uf (conn / 2 - 1)) ∧
  (conn % 2 = 0 → side ≤ conn / 2 → rootD uf (conn / 2) = rootD uf (conn / 2 - side))

/-! ### The maze read as a graph -/

/-- One cleared wall bit of a non-boundary candidate, read as an edge from
cell `i` to its west (`j = i-1`) or south (`j = i-side`) neighbour. -/
def mazeAdjRel (side : Nat) (maze : List Nat) (i j : Nat) : Prop :=
  i < side * side ∧
  ((j + 1 = i ∧ i % side ≠ 0 ∧ maze.getD i 0 &&& BLOCKS_WEST = 0) ∨
   (j + side = i ∧ side ≤ i ∧ maze.getD i 0 &&& BLOCKS_SOUTH = 0))

instance (side : Nat) (maze : List Nat) : DecidableRel (mazeAdjRel side maze) := by
  unfold mazeAdjRel; infer_instance

/-- The undirected graph on the `side²` cells whose edges are the cleared
south/west bits of non-boundary candidates. -/
def mazeGraph (side : Nat) (maze : List Nat) : SimpleGraph (Fin (side*side)) :=
  SimpleGraph.fromRel (fun a b => mazeAdjRel side maze a b)

instance (side : Nat) (maze : List Nat) : DecidableRel (mazeGraph side maze).Adj := by
  unfold mazeGraph
  intro a b
  rw [SimpleGraph.fromRel_adj]
  infer_instance

/-- The invariant carried through the shuffled Kruskal pass: sizes, a
well-formed forest, the union-find partition matching graph reachability,
the edge/root count balance, and acyclicity. -/
structure MazeInv (side : Nat) (uf : List Int) (maze : List Nat) : Prop where
  ufLen : uf.length = side * side
  mazeLen : maze.length = side * side
  wf : WFuf uf
  partition : ∀ a b : Fin (side * side),
    (rootD uf a = rootD uf b ↔ (mazeGraph side maze).Reachable a b)
  count : (mazeGraph side maze).edgeFinset.card +
    ((Finset.range (side * side)).filter (fun i => isRoot uf i)).card = side * side
  acyclic : (mazeGraph side maze).IsAcyclic

/-! ### The wall-geometry compiler (`makeWallBlocks`) -/

structure EntityRange where
  offset : ℚ
  length : ℚ
deriving DecidableEq

structure WallBlocks where
  south : List EntityRange
  west : List EntityRange
  column : List EntityRange
  rawData : List ℚ

/-- The mutable state of `makeWallBlocks`: the flat vertex buffer under
construction, the running vertex count (`index`), the start of the surface
currently being emitted, and the three range groups. -/
structure WallBuild where
  points : List ℚ
  index : Nat
  surfaceStartIndex : ℚ
  column : List EntityRange
  south : List EntityRange
  west : List EntityRange

/-- The `vertex` closure: push position and current normal (6 numbers),
bump `index`. -/
def pushVertex (normal : List ℚ) (x y z : ℚ) (st : WallBuild) : WallBuild :=
  { st with index := st.index + 1, points := st.points ++ [x, y, z] ++ normal }

/-- `finishSurface(south)`: push `{offset: surfaceStartIndex, length: index
- surfaceStartIndex}` into the south block and restart the surface. -/
def finishSouth (st : WallBuild) : WallBuild :=
  { st with
    south := st.south ++ [⟨st.surfaceStartIndex, (st.index : ℚ) - st.surfaceStartIndex⟩],
    surfaceStartIndex := (st.index : ℚ) }

/-- `finishSurface(west)`: as `finishSouth`, into the west block. -/
def finishWest (st : WallBuild) : WallBuild :=
  { st with
    west := st.west ++ [⟨st.surfaceStartIndex, (st.index : ℚ) - st.surfaceStartIndex⟩],
    surfaceStartIndex := (st.index : ℚ) }

/-- `portionColumn`: carve `2 + (index - surfaceStartIndex - 2) *
WALL_THICKNESS` vertices off the front of the current run into the column
block, then move the surface start to 2 vertices before the carved end (the
shared seam). -/
def portionColumn (T : ℚ) (st : WallBuild) : WallBuild :=
  let length := 2 + ((st.index : ℚ) - st.surfaceStartIndex - 2) * T
  { st with
    column := st.column ++ [⟨st.surfaceStartIndex, length⟩],
    surfaceStartIndex := st.surfaceStartIndex + length - 2 }

/-- The values taken by a JS loop `for (v = start; v <= limit; v += step)`
for `step > 0` (at the source's parameters every iterate is an exact binary
fraction, so the float loop and the rational loop agree). -/
def loopVals (start step limit : ℚ) : List ℚ :=
  (List.range (⌊(limit - start) / step⌋ + 1).toNat).map (fun k => start + (k : ℚ) * step)

/-- `makeWallBlocks`, parameterised by the source constants
(`WALL_THICKNESS`, `DETAIL`).  Faces are emitted in source order; the three
south-wall long faces and the two west-wall long faces are portioned for
the column. -/
def makeWallBlocks (T : ℚ) (detail : Nat) : WallBlocks :=
  let STEP := T / (detail : ℚ)
  let st0 : WallBuild := ⟨[], 0, 0, [], [], []⟩
  -- the front south wall, normal (0,-1,0)
  let st := (loopVals 0 STEP 1).foldl
    (fun st x => pushVertex [0,-1,0] x 0 0 (pushVertex [0,-1,0] x 0 1 st)) st0
  let st := finishSouth (portionColumn T st)
  -- the back of the south wall, normal (0,1,0)
  let st := (loopVals 0 STEP 1).foldl
    (fun st x => pushVertex [0,1,0] x T 1 (pushVertex [0,1,0] x T 0 st)) st
  let st := finishSouth (portionColumn T st)
  -- the back of the west wall, normal (0,1,0)
  let st := (loopVals 0 STEP T).foldl
    (fun st x => pushVertex [0,1,0] x 1 1 (pushVertex [0,1,0] x 1 0 st)) st
  let st := finishWest st
  -- the top of the south wall, normal (0,0,1)
  let st := (loopVals 0 STEP 1).foldl
    (fun st x => pushVertex [0,0,1] x 0 1 (pushVertex [0,0,1] x T 1 st)) st
  let st := finishSouth (portionColumn T st)
  -- the top of the west wall, normal (0,0,1)
  let st := (loopVals T STEP 1).foldl
    (fun st y => pushVertex [0,0,1] T y 1 (pushVertex [0,0,1] 0 y 1 st)) st
  let st := finishWest st
  -- the right of the south wall, normal (1,0,0)
  let st := (loopVals 0 STEP T).foldl
    (fun st y => pushVertex [1,0,0] 1 y 0 (pushVertex [1,0,0] 1 y 1 st)) st
  let st := finishSouth st
  -- the right of the west wall, normal (1,0,0)
  let st := (loopVals 0 STEP 1).foldl
    (fun st y => pushVertex [1,0,0] T y 0 (pushVertex [1,0,0] T y 1 st)) st
  let st := finishWest (portionColumn T st)
  -- the left of the west wall, normal (-1,0,0)
  let st := (loopVals 0 STEP 1).foldl
    (fun st y => pushVertex [-1,0,0] 0 y 1 (pushVertex [-1,0,0] 0 y 0 st)) st
  let st := finishWest (portionColumn T st)
  ⟨st.south, st.west, st.column, st.points⟩

/-- The five wall runs split by `portionColumn`, each paired with the
surface range pushed by the `finishSurface` immediately following it: the
south wall's front, back and top faces, then the west wall's right and left
faces (in push order; ranges read with `getD`). -/
def seamPairs (w : WallBlocks) : List (EntityRange × EntityRange) :=
  [(w.column.getD 0 ⟨0,0⟩, w.south.getD 0 ⟨0,0⟩),
   (w.column.getD 1 ⟨0,0⟩, w.south.getD 1 ⟨0,0⟩),
   (w.column.getD 2 ⟨0,0⟩, w.south.getD 2 ⟨0,0⟩),
   (w.column.getD 3 ⟨0,0⟩, w.west.getD 2 ⟨0,0⟩),
   (w.column.getD 4 ⟨0,0⟩, w.west.getD 3 ⟨0,0⟩)]

/-- The full vertex count of a portioned run, recovered from its seam pair:
the run starts at the column range's offset and ends where the remainder
range ends. -/
def runLength (p : EntityRange × EntityRange) : ℚ :=
  p.2.offset + p.2.length - p.1.offset

end Minotaur

namespace Minotaur

set_option maxRecDepth 10000

/-! ### C2: seam bookkeeping of `portionColumn` / `finishSurface` -/

/-- C2 (counterexample): at the source parameters the carved column length
plus the remainder length does NOT equal the full vertex count of the run:
for the south wall's front face it is `4 + 8 = 12` against a run of `10`
vertices, because the 2-vertex seam is counted in both ranges. -/
theorem C2_counterexample :
    ¬ (∀ p ∈ seamPairs (makeWallBlocks WALL_THICKNESS DETAIL),
        p.1.length + p.2.length = runLength p) := by
  with_unfolding_all decide

/-- C2 (amended): for every wall run split by `portionColumn`, the
remainder range starts exactly 2 vertices before the column range's end,
and column length plus remainder length equals the full vertex count of the
run PLUS the 2 shared seam vertices; both ranges contain the seam (length
at least 2), so they overlap in exactly the 2-vertex seam with no gap. -/
theorem C2_amended :
    ∀ p ∈ seamPairs (makeWallBlocks WALL_THICKNESS DETAIL),
      p.2.offset = p.1.offset + p.1.length - 2 ∧
      p.1.length + p.2.length = runLength p + 2 ∧
      2 ≤ p.1.length ∧ 2 ≤ p.2.length := by
  with_unfolding_all decide

/-- C2 (witness): the amended statement instantiated at the first seam
pair (the front face of the south wall). -/
theorem C2_witness :
    ((makeWallBlocks WALL_THICKNESS DETAIL).column.getD 0 ⟨0,0⟩,
       (makeWallBlocks WALL_THICKNESS DETAIL).south.getD 0 ⟨0,0⟩)
        ∈ seamPairs (makeWallBlocks WALL_THICKNESS DETAIL) ∧
    ((makeWallBlocks WALL_THICKNESS DETAIL).south.getD 0 ⟨0,0⟩).offset =
      ((makeWallBlocks WALL_THICKNESS DETAIL).column.getD 0 ⟨0,0⟩).offset +
      ((makeWallBlocks WALL_THICKNESS DETAIL).column.getD 0 ⟨0,0⟩).length - 2 :=
  ⟨by with_unfolding_all decide,
   (C2_amended ((makeWallBlocks WALL_THICKNESS DETAIL).column.getD 0 ⟨0,0⟩,
      (makeWallBlocks WALL_THICKNESS DETAIL).south.getD 0 ⟨0,0⟩)
      (by with_unfolding_all decide)).1⟩

/-! ### C6: range-group counts of the compiled wall -/

/-- C6 (counterexample): the column group does not have 3 ranges: all five
`portionColumn` calls (three on the south wall, two on the west wall) push
into the single `column` block, so it has 5 ranges. -/
theorem C6_counterexample :
    ¬ ((makeWallBlocks WALL_THICKNESS DETAIL).south.length = 4 ∧
       (makeWallBlocks WALL_THICKNESS DETAIL).column.length = 3) := by
  with_unfolding_all decide

/-- C6 (amended): `makeWallBlocks` at the source parameters yields a south
group with exactly 4 sub-ranges (front, back, top, right end-cap) and a
column group with exactly 5 ranges, one per `portionColumn` call (3
attributed to the south wall and 2 to the west wall), each of length ≥ 2. -/
theorem C6_amended :
    (makeWallBlocks WALL_THICKNESS DETAIL).south.length = 4 ∧
    (makeWallBlocks WALL_THICKNESS DETAIL).column.length = 5 ∧
    ∀ r ∈ (makeWallBlocks WALL_THICKNESS DETAIL).column, 2 ≤ r.length := by
  with_unfolding_all decide

/-- C6 (witness): the amended statement's per-range bound instantiated at
the first column range. -/
theorem C6_witness :
    ((makeWallBlocks WALL_THICKNESS DETAIL).column.getD 0 ⟨0,0⟩)
        ∈ (makeWallBlocks WALL_THICKNESS DETAIL).column ∧
    2 ≤ ((makeWallBlocks WALL_THICKNESS DETAIL).column.getD 0 ⟨0,0⟩).length :=
  ⟨by with_unfolding_all decide,
   C6_amended.2.2 _ (by with_unfolding_all decide)⟩

/-! ### C9: all draw ranges stay inside the buffer -/

/-- C9: with the default parameters every carved column range is no longer
than its source run, and every range of the south, west and column groups
has integral non-negative offset and length with `offset + length` within
the buffer's vertex count (`rawData.length / 6 = 66`). -/
theorem C9_ranges_safe :
    (∀ p ∈ seamPairs (makeWallBlocks WALL_THICKNESS DETAIL),
       p.1.length ≤ runLength p) ∧
    (∀ r ∈ (makeWallBlocks WALL_THICKNESS DETAIL).south ++
           (makeWallBlocks WALL_THICKNESS DETAIL).west ++
           (makeWallBlocks WALL_THICKNESS DETAIL).column,
       r.offset.den = 1 ∧ r.length.den = 1 ∧ 0 ≤ r.offset ∧ 0 ≤ r.length ∧
       r.offset + r.length ≤ ((makeWallBlocks WALL_THICKNESS DETAIL).rawData.length : ℚ) / 6) := by
  with_unfolding_all decide

/-- C9 (witness): the bound instantiated at the first south range. -/
theorem C9_witness :
    ((makeWallBlocks WALL_THICKNESS DETAIL).south.getD 0 ⟨0,0⟩)
        ∈ (makeWallBlocks WALL_THICKNESS DETAIL).south ++
          (makeWallBlocks WALL_THICKNESS DETAIL).west ++
          (makeWallBlocks WALL_THICKNESS DETAIL).column ∧
    0 ≤ ((makeWallBlocks WALL_THICKNESS DETAIL).south.getD 0 ⟨0,0⟩).offset :=
  ⟨by with_unfolding_all decide,
   (C9_ranges_safe.2 _ (by with_unfolding_all decide)).2.2.1⟩

/-! ### C5: `makeMaze` performs no validation -/

/-- C5 (counterexample): at the even side `2` maze generation does not
raise; it returns a complete mask array. -/
theorem C5_counterexample :
    makeMazeE 2 END_HALLWAY_LENGTH (fun _ => 0) = Except.ok [3, 1, 1, 1] :=
  congrArg Except.ok (by decide)

/-- C5 (amended): `makeMaze` performs no validation of `side` whatsoever
and never raises: for every side (even, zero or odd) it returns a mask
array.  In the source `side` is the fixed constant `MAZE_SIDE = 41` (odd
and ≥ 1), so no validation path exists or is exercised. -/
theorem C5_amended (side corridor : Nat) (keys : Nat → Int) :
    (makeMazeE side corridor keys).isOk = true := rfl

end Minotaur

namespace Minotaur

/-! ### List and bit helper lemmas -/

theorem getD_set_ne {α : Type} (l : List α) (i j : Nat) (v d : α) (h : i ≠ j) :
    (l.set i v).getD j d = l.getD j d := by
  simp [List.getD_eq_getElem?_getD, List.getElem?_set_ne h]

theorem getD_set_self {α : Type} (l : List α) (i : Nat) (v d : α) :
    (l.set i v).getD i d = if i < l.length then v else d := by
  by_cases h : i < l.length
  · simp [List.getD_eq_getElem?_getD, List.getElem?_set_self h, h]
  · simp [List.getD_eq_getElem?_getD, List.getElem?_set, h]

theorem getD_replicate' {α : Type} (n : Nat) (a : α) (j : Nat) (d : α) :
    (List.replicate n a).getD j d = if j < n then a else d := by
  by_cases h : j < n <;> simp [List.getD_eq_getElem?_getD, List.getElem?_replicate, h]

theorem and_and_zero (m b c : Nat) (h : m &&& b = 0) : (m &&& c) &&& b = 0 := by
  rw [Nat.and_assoc, Nat.and_comm c b, ← Nat.and_assoc, h, Nat.zero_and]

theorem clearWest_bit1 (m : Nat) : clearWest m &&& 2 = m &&& 2 := by
  have h : (4294967294 &&& 2 : Nat) = 2 := by decide
  rw [clearWest, Nat.and_assoc, h]

theorem clearWest_bit0 (m : Nat) : clearWest m &&& 1 = 0 := by
  have h : (4294967294 &&& 1 : Nat) = 0 := by decide
  rw [clearWest, Nat.and_assoc, h, Nat.and_zero]

theorem clearSouth_bit0 (m : Nat) : clearSouth m &&& 1 = m &&& 1 := by
  have h : (4294967293 &&& 1 : Nat) = 1 := by decide
  rw [clearSouth, Nat.and_assoc, h]

theorem clearSouth_bit1 (m : Nat) : clearSouth m &&& 2 = 0 := by
  have h : (4294967293 &&& 2 : Nat) = 0 := by decide
  rw [clearSouth, Nat.and_assoc, h, Nat.and_zero]

theorem clearWest_le (m : Nat) : clearWest m ≤ m := Nat.and_le_left

theorem clearSouth_le (m : Nat) : clearSouth m ≤ m := Nat.and_le_left

/-! ### Shape of a single `processConn` step -/

theorem processConn_cases (side : Nat) (st : List Int × List Nat) (conn : Nat) :
    (processConn side st conn).2 = st.2 ∨
    (conn % 2 = 1 ∧ (conn / 2) % side ≠ 0 ∧
      (processConn side st conn).2 =
        st.2.set (conn / 2) (clearWest (st.2.getD (conn / 2) 0))) ∨
    (conn % 2 = 0 ∧ side ≤ conn / 2 ∧
      (processConn side st conn).2 =
        st.2.set (conn / 2) (clearSouth (st.2.getD (conn / 2) 0))) := by
  unfold processConn
  by_cases h1 : conn % 2 = 1
  · by_cases h2 : (conn / 2) % side = 0
    · simp [h1, h2]
    · cases hu : (unionIfDisconnected st.1 (conn / 2) (conn / 2 - 1)).1
      · simp [h1, h2, hu]
      · simp [h1, h2, hu]
  · have h0 : conn % 2 = 0 := by omega
    by_cases h2 : conn / 2 < side
    · simp [h1, h2]
    · cases hu : (unionIfDisconnected st.1 (conn / 2) (conn / 2 - side)).1
      · simp [h1, h0, h2, hu]
      · simp [h1, h0, h2, hu, Nat.le_of_not_lt h2]

theorem processConn_mazeLen (side : Nat) (st : List Int × List Nat) (conn : Nat) :
    (processConn side st conn).2.length = st.2.length := by
  rcases processConn_cases side st conn with h | ⟨_, _, h⟩ | ⟨_, _, h⟩ <;>
    simp [h]

/-! ### Folding the shuffled pass -/

theorem foldl_preserve (side : Nat) (P : List Int × List Nat → Prop) :
    ∀ (L : List Nat) (st : List Int × List Nat),
      (∀ st' c, c ∈ L → P st' → P (processConn side st' c)) → P st →
      P (L.foldl (processConn side) st)
  | [], _, _, h => h
  | c :: L, st, hstep, h =>
    foldl_preserve side P L (processConn side st c)
      (fun st' c' hc' => hstep st' c' (List.mem_cons_of_mem _ hc'))
      (hstep st c (List.mem_cons_self _ _) h)

theorem initialMaze_getD (side j : Nat) :
    (initialMaze side).getD j 0 =
      if j < side * side then (if j = side / 2 then 1 else 3) else 0 := by
  unfold initialMaze
  by_cases hj : j < side * side
  · by_cases he : j = side / 2
    · subst he
      rw [getD_set_self]
      simp [List.length_replicate, hj, getD_replicate', if_pos hj]
    · rw [getD_set_ne _ _ _ _ _ (fun h => he h.symm), getD_replicate', if_pos hj,
        if_pos hj, if_neg he]
  · by_cases he : j = side / 2
    · subst he
      rw [getD_set_self]
      simp [List.length_replicate, hj]
    · rw [getD_set_ne _ _ _ _ _ (fun h => he h.symm), getD_replicate', if_neg hj, if_neg hj]

theorem initialMaze_length (side : Nat) :
    (initialMaze side).length = side * side := by
  simp [initialMaze]

theorem mem_connectionsToCheck (side corridor c : Nat) :
    c ∈ connectionsToCheck side corridor ↔
      ∃ i, i < side * side ∧
        (c = 2*i ∨ (c = 2*i+1 ∧ ¬corridorCell side corridor i)) := by
  unfold connectionsToCheck
  simp only [List.mem_flatMap, List.mem_range]
  constructor
  · rintro ⟨i, hi, hmem⟩
    by_cases hc : corridorCell side corridor i
    · rw [if_neg (not_not_intro hc)] at hmem
      simp only [List.mem_singleton] at hmem
      exact ⟨i, hi, Or.inl hmem⟩
    · rw [if_pos hc] at hmem
      simp only [List.mem_cons, List.mem_singleton] at hmem
      rcases hmem with h | h | h
      · exact ⟨i, hi, Or.inl h⟩
      · exact ⟨i, hi, Or.inr ⟨h, hc⟩⟩
      · cases h
  · rintro ⟨i, hi, h | ⟨h, hc⟩⟩
    · refine ⟨i, hi, ?_⟩
      by_cases hc : corridorCell side corridor i
      · rw [if_neg (not_not_intro hc)]
        simp [h]
      · rw [if_pos hc]
        simp [h]
    · exact ⟨i, hi, by rw [if_pos hc]; simp [h]⟩

theorem mem_shuffledSeq {arr : List Nat} {keys : Nat → Int} {c : Nat}
    (h : c ∈ shuffledSeq arr keys) : c ∈ arr := by
  unfold shuffledSeq at h
  rcases List.mem_filterMap.mp h with ⟨i, _, hi⟩
  exact List.getElem?_mem hi

end Minotaur

namespace Minotaur

/-! ### C3: the exterior gate is open unconditionally -/

/-- C3: for every side, corridor length and sequence of random keys, the
bottom-centre cell `HALF = side >> 1` has its south bit (bit 1) clear in
the output mask: the gate `maze[HALF] &= 1` is cleared before the shuffled
pass and no step ever sets a bit. -/
theorem C3_gate_south_open (side corridor : Nat) (keys : Nat → Int) :
    (makeMaze side corridor keys).getD (side / 2) 0 &&& BLOCKS_SOUTH = 0 := by
  show (makeMaze side corridor keys).getD (side / 2) 0 &&& 2 = 0
  unfold makeMaze
  refine foldl_preserve side (fun st => st.2.getD (side / 2) 0 &&& 2 = 0) _ _
    (fun st c _ h => ?_) ?_
  · rcases processConn_cases side st c with hc | ⟨_, _, hc⟩ | ⟨_, _, hc⟩
    · rw [hc]; exact h
    · rw [hc]
      by_cases he : c / 2 = side / 2
      · rw [he, getD_set_self]
        split
        · rw [he] at *; rw [clearWest_bit1]; exact h
        · decide
      · rw [getD_set_ne _ _ _ _ _ he]; exact h
    · rw [hc]
      by_cases he : c / 2 = side / 2
      · rw [he, getD_set_self]
        split
        · rw [clearSouth_bit1]
        · decide
      · rw [getD_set_ne _ _ _ _ _ he]; exact h
  · show (initialMaze side).getD (side / 2) 0 &&& 2 = 0
    rw [initialMaze_getD]
    split
    · rw [if_pos rfl]
      decide
    · decide

/-! ### C8: the output is side² masks, each in {0,1,2,3} -/

/-- C8: for every side, corridor length and random keys, `makeMaze` returns
exactly `side²` masks, each a value in `{0,1,2,3}`: every mask starts at 3
(1 at the gate) and steps only ever `&&&` bits away. -/
theorem C8_masks_in_range (side corridor : Nat) (keys : Nat → Int) :
    (makeMaze side corridor keys).length = side * side ∧
    ∀ m ∈ makeMaze side corridor keys, m < 4 := by
  have key : (makeMaze side corridor keys).length = side * side ∧
      ∀ j, (makeMaze side corridor keys).getD j 0 < 4 := by
    unfold makeMaze
    refine foldl_preserve side
      (fun st => st.2.length = side * side ∧ ∀ j, st.2.getD j 0 < 4) _ _
      (fun st c _ h => ?_) ?_
    · refine ⟨by rw [processConn_mazeLen]; exact h.1, fun j => ?_⟩
      rcases processConn_cases side st c with hc | ⟨_, _, hc⟩ | ⟨_, _, hc⟩
      · rw [hc]; exact h.2 j
      · rw [hc]
        by_cases he : c / 2 = j
        · subst he
          rw [getD_set_self]
          split
          · exact Nat.lt_of_le_of_lt (clearWest_le _) (h.2 _)
          · decide
        · rw [getD_set_ne _ _ _ _ _ he]; exact h.2 j
      · rw [hc]
        by_cases he : c / 2 = j
        · subst he
          rw [getD_set_self]
          split
          · exact Nat.lt_of_le_of_lt (clearSouth_le _) (h.2 _)
          · decide
        · rw [getD_set_ne _ _ _ _ _ he]; exact h.2 j
    · refine ⟨initialMaze_length side, fun j => ?_⟩
      rw [initialMaze_getD]
      split
      · split <;> decide
      · decide
  refine ⟨key.1, fun m hm => ?_⟩
  rcases List.mem_iff_getElem.mp hm with ⟨j, hj, hv⟩
  have := key.2 j
  rwa [List.getD_eq_getElem _ _ hj, hv] at this

/-! ### C10: the west and south perimeter walls survive -/

/-- C10: for every side, corridor length and random keys, every cell of
column 0 keeps its west bit, and every row-0 cell other than the gate
keeps its south bit: boundary candidates are skipped (`isLeftmost` /
`isBottom`) and only the gate is force-cleared. -/
theorem C10_perimeter_closed (side corridor : Nat) (keys : Nat → Int) :
    ∀ j, j < side * side →
      (j % side = 0 → (makeMaze side corridor keys).getD j 0 &&& BLOCKS_WEST = 1) ∧
      (j < side → j ≠ side / 2 →
        (makeMaze side corridor keys).getD j 0 &&& BLOCKS_SOUTH = 2) := by
  show ∀ j, j < side * side →
      (j % side = 0 → (makeMaze side corridor keys).getD j 0 &&& 1 = 1) ∧
      (j < side → j ≠ side / 2 → (makeMaze side corridor keys).getD j 0 &&& 2 = 2)
  intro j hj
  have key : (makeMaze side corridor keys).length = side * side ∧
      ((j % side = 0 → (makeMaze side corridor keys).getD j 0 &&& 1 = 1) ∧
       (j < side → j ≠ side / 2 → (makeMaze side corridor keys).getD j 0 &&& 2 = 2)) := by
    unfold makeMaze
    refine foldl_preserve side
      (fun st => st.2.length = side * side ∧
        ((j % side = 0 → st.2.getD j 0 &&& 1 = 1) ∧
         (j < side → j ≠ side / 2 → st.2.getD j 0 &&& 2 = 2))) _ _
      (fun st c _ h => ?_) ?_
    · refine ⟨by rw [processConn_mazeLen]; exact h.1, ?_, ?_⟩
      · intro hcol
        rcases processConn_cases side st c with hc | ⟨_, hnl, hc⟩ | ⟨_, hs, hc⟩
        · rw [hc]; exact h.2.1 hcol
        · rw [hc]
          have he : c / 2 ≠ j := fun he => hnl (he ▸ hcol)
          rw [getD_set_ne _ _ _ _ _ he]; exact h.2.1 hcol
        · rw [hc]
          by_cases he : c / 2 = j
          · subst he
            rw [getD_set_self, if_pos (h.1 ▸ hj), clearSouth_bit0]
            exact h.2.1 hcol
          · rw [getD_set_ne _ _ _ _ _ he]; exact h.2.1 hcol
      · intro hrow hgate
        rcases processConn_cases side st c with hc | ⟨_, hnl, hc⟩ | ⟨_, hs, hc⟩
        · rw [hc]; exact h.2.2 hrow hgate
        · rw [hc]
          by_cases he : c / 2 = j
          · subst he
            rw [getD_set_self, if_pos (h.1 ▸ hj), clearWest_bit1]
            exact h.2.2 hrow hgate
          · rw [getD_set_ne _ _ _ _ _ he]; exact h.2.2 hrow hgate
        · rw [hc]
          have he : c / 2 ≠ j := fun he => by omega
          rw [getD_set_ne _ _ _ _ _ he]; exact h.2.2 hrow hgate
    · refine ⟨initialMaze_length side, fun _ => ?_, fun _ hgate => ?_⟩
      · rw [initialMaze_getD, if_pos hj]
        split <;> decide
      · rw [initialMaze_getD, if_pos hj, if_neg hgate]
        decide
  exact key.2

/-! ### C4: the exit corridor's west walls survive -/

/-- C4: for every side, corridor length and random keys, every cell in the
two centre columns within the first `corridor` rows keeps its west bit: no
west candidate is generated for such a cell, so its west wall is never
removed. -/
theorem C4_corridor_west_closed (side corridor : Nat) (keys : Nat → Int) :
    ∀ j, j < side * side → corridorCell side corridor j →
      (makeMaze side corridor keys).getD j 0 &&& BLOCKS_WEST = 1 := by
  show ∀ j, j < side * side → corridorCell side corridor j →
      (makeMaze side corridor keys).getD j 0 &&& 1 = 1
  intro j hj hcorr
  have key : (makeMaze side corridor keys).length = side * side ∧
      (makeMaze side corridor keys).getD j 0 &&& 1 = 1 := by
    unfold makeMaze
    refine foldl_preserve side
      (fun st => st.2.length = side * side ∧ st.2.getD j 0 &&& 1 = 1) _ _
      (fun st c hcmem h => ?_) ?_
    · refine ⟨by rw [processConn_mazeLen]; exact h.1, ?_⟩
      rcases processConn_cases side st c with hc | ⟨hodd, hnl, hc⟩ | ⟨_, _, hc⟩
      · rw [hc]; exact h.2
      · rw [hc]
        by_cases he : c / 2 = j
        · exfalso
          have hc' : c ∈ connectionsToCheck side corridor :=
            mem_shuffledSeq hcmem
          rcases (mem_connectionsToCheck side corridor c).mp hc' with
            ⟨i, _, hi | ⟨hi, hnc⟩⟩
          · omega
          · have : i = j := by omega
            exact hnc (this ▸ hcorr)
        · rw [getD_set_ne _ _ _ _ _ he]; exact h.2
      · rw [hc]
        by_cases he : c / 2 = j
        · subst he
          rw [getD_set_self, if_pos (h.1 ▸ hj), clearSouth_bit0]
          exact h.2
        · rw [getD_set_ne _ _ _ _ _ he]; exact h.2
    · refine ⟨initialMaze_length side, ?_⟩
      rw [initialMaze_getD, if_pos hj]
      split <;> decide
  exact key.2

/-- C4 (witness): at side 3 with the source corridor length, cell 1 (the
centre column of row 0) keeps its west bit. -/
theorem C4_witness :
    1 < 3 * 3 ∧ corridorCell 3 END_HALLWAY_LENGTH 1 ∧
      (makeMaze 3 END_HALLWAY_LENGTH (fun _ => 0)).getD 1 0 &&& BLOCKS_WEST = 1 :=
  ⟨by decide, by decide,
   C4_corridor_west_closed 3 END_HALLWAY_LENGTH (fun _ => 0) 1 (by decide) (by decide)⟩

/-- C10 (witness): at side 3, cell 0 keeps its west bit and, not being the
gate, its south bit. -/
theorem C10_witness :
    0 < 3 * 3 ∧
      (makeMaze 3 END_HALLWAY_LENGTH (fun _ => 0)).getD 0 0 &&& BLOCKS_WEST = 1 ∧
      (makeMaze 3 END_HALLWAY_LENGTH (fun _ => 0)).getD 0 0 &&& BLOCKS_SOUTH = 2 :=
  ⟨by decide,
   (C10_perimeter_closed 3 END_HALLWAY_LENGTH (fun _ => 0) 0 (by decide)).1 (by decide),
   (C10_perimeter_closed 3 END_HALLWAY_LENGTH (fun _ => 0) 0 (by decide)).2
     (by decide) (by decide)⟩

end Minotaur

namespace Minotaur

/-! ### C7: determinism given the drawn random sequence -/

theorem orderedInsert_congr (r r' : Nat → Nat → Prop) [DecidableRel r] [DecidableRel r']
    (a : Nat) (l : List Nat) (h : ∀ b ∈ l, (r a b ↔ r' a b)) :
    List.orderedInsert r a l = List.orderedInsert r' a l := by
  induction l with
  | nil => rfl
  | cons b l ih =>
    show (if r a b then a :: b :: l else b :: List.orderedInsert r a l) =
      (if r' a b then a :: b :: l else b :: List.orderedInsert r' a l)
    by_cases hr : r a b
    · rw [if_pos hr, if_pos ((h b (List.mem_cons_self _ _)).mp hr)]
    · rw [if_neg hr, if_neg (fun h' => hr ((h b (List.mem_cons_self _ _)).mpr h')),
        ih (fun c hc => h c (List.mem_cons_of_mem _ hc))]

theorem insertionSort_congr (r r' : Nat → Nat → Prop) [DecidableRel r] [DecidableRel r']
    (l : List Nat) (h : ∀ a ∈ l, ∀ b ∈ l, (r a b ↔ r' a b)) :
    List.insertionSort r l = List.insertionSort r' l := by
  induction l with
  | nil => rfl
  | cons a l ih =>
    show List.orderedInsert r a (List.insertionSort r l) =
      List.orderedInsert r' a (List.insertionSort r' l)
    rw [ih (fun x hx y hy => h x (List.mem_cons_of_mem _ hx) y (List.mem_cons_of_mem _ hy))]
    refine orderedInsert_congr r r' a _ (fun b hb => ?_)
    have hb' : b ∈ l := (List.perm_insertionSort r' l).mem_iff.mp hb
    exact h a (List.mem_cons_self _ _) b (List.mem_cons_of_mem _ hb')

/-- C7: maze generation is deterministic given its random source: two runs
that draw the identical sequence of random values (one per candidate
connection) produce identical mask arrays. -/
theorem C7_deterministic (side corridor : Nat) (keys1 keys2 : Nat → Int)
    (h : ∀ i, i < (connectionsToCheck side corridor).length → keys1 i = keys2 i) :
    makeMaze side corridor keys1 = makeMaze side corridor keys2 := by
  have horder : shuffledOrder (connectionsToCheck side corridor).length keys1 =
      shuffledOrder (connectionsToCheck side corridor).length keys2 := by
    unfold shuffledOrder
    refine insertionSort_congr _ _ _ (fun a ha b hb => ?_)
    rw [h a (List.mem_range.mp ha), h b (List.mem_range.mp hb)]
  unfold makeMaze shuffledSeq
  simp only [horder]

/-- C7 (witness): the determinism theorem instantiated at side 2 with two
syntactically distinct but equal key streams. -/
theorem C7_witness :
    (∀ i, i < (connectionsToCheck 2 END_HALLWAY_LENGTH).length →
      (fun _ => (0 : Int)) i = (fun j => (0 : Int) * j) i) ∧
    makeMaze 2 END_HALLWAY_LENGTH (fun _ => 0) =
      makeMaze 2 END_HALLWAY_LENGTH (fun j => (0 : Int) * j) :=
  ⟨fun i _ => by simp,
   C7_deterministic 2 END_HALLWAY_LENGTH _ _ (fun i _ => by simp)⟩

end Minotaur

namespace Minotaur

/-! ### Union-find theory: `findN` basics -/

theorem findN_succ (fuel : Nat) (uf : List Int) (i : Nat) :
    findN (fuel+1) uf i =
      if uf.getD i (-1) < 0 then i else findN fuel uf (uf.getD i (-1)).toNat := rfl

theorem findN_isRoot_id (uf : List Int) (i : Nat) (h : isRoot uf i) :
    ∀ k, findN k uf i = i := by
  intro k
  cases k with
  | zero => rfl
  | succ k =>
    have h' : uf.getD i (-1) < 0 := h
    rw [findN_succ, if_pos h']

theorem findN_add (uf : List Int) (a b : Nat) :
    ∀ i, findN (a + b) uf i = findN b uf (findN a uf i) := by
  induction a with
  | zero => intro i; rw [Nat.zero_add]; rfl
  | succ a ih =>
    intro i
    have : a + 1 + b = (a + b) + 1 := by omega
    rw [this, findN_succ, findN_succ]
    by_cases hp : uf.getD i (-1) < 0
    · rw [if_pos hp, if_pos hp]
      exact (findN_isRoot_id uf i hp b).symm
    · rw [if_neg hp, if_neg hp, ih]

theorem findN_stable (uf : List Int) (i k k' : Nat)
    (h : isRoot uf (findN k uf i)) (hk : k ≤ k') :
    findN k' uf i = findN k uf i := by
  rw [show k' = k + (k' - k) by omega, findN_add]
  exact findN_isRoot_id uf _ h _

theorem findN_oob (uf : List Int) (i : Nat) (h : uf.length ≤ i) :
    ∀ k, findN k uf i = i := by
  intro k
  cases k with
  | zero => rfl
  | succ k =>
    rw [findN_succ, if_pos]
    rw [List.getD_eq_getElem?_getD, List.getElem?_eq_none (by omega)]
    decide

theorem findN_lt (uf : List Int) (hwf : WFuf uf) :
    ∀ k i, i < uf.length → findN k uf i < uf.length := by
  intro k
  induction k with
  | zero => intro i hi; exact hi
  | succ k ih =>
    intro i hi
    rw [findN_succ]
    by_cases hp : uf.getD i (-1) < 0
    · rw [if_pos hp]; exact hi
    · rw [if_neg hp]
      refine ih _ ?_
      have := (hwf i hi).1
      unfold parentOf at this
      exact this (by omega)

theorem rootD_lt (uf : List Int) (hwf : WFuf uf) (i : Nat) (hi : i < uf.length) :
    rootD uf i < uf.length := findN_lt uf hwf _ i hi

theorem rootD_isRoot (uf : List Int) (hwf : WFuf uf) (i : Nat) (hi : i < uf.length) :
    isRoot uf (rootD uf i) := (hwf i hi).2

theorem rootD_of_isRoot (uf : List Int) (i : Nat) (h : isRoot uf i) :
    rootD uf i = i := findN_isRoot_id uf i h _

theorem rootD_oob (uf : List Int) (i : Nat) (h : uf.length ≤ i) :
    rootD uf i = i := findN_oob uf i h _

theorem rootD_parent (uf : List Int) (hwf : WFuf uf) (i : Nat) (hi : i < uf.length)
    (hp : ¬ uf.getD i (-1) < 0) :
    rootD uf i = rootD uf (uf.getD i (-1)).toNat := by
  have h1 : findN (uf.length + 1) uf i = findN uf.length uf (uf.getD i (-1)).toNat := by
    rw [findN_succ, if_neg hp]
  have h2 : findN (uf.length + 1) uf i = findN uf.length uf i :=
    findN_stable uf i uf.length (uf.length + 1) (hwf i hi).2 (by omega)
  unfold rootD
  rw [← h2, h1]

/-! ### Union-find theory: chains reach a root in fewer than `length` steps -/

theorem chains_short (uf : List Int) (hwf : WFuf uf) (i : Nat) (hi : i < uf.length) :
    ∃ k, k + 1 ≤ uf.length ∧ isRoot uf (findN k uf i) := by
  have hex : ∃ k, isRoot uf (findN k uf i) := ⟨uf.length, (hwf i hi).2⟩
  have hm : isRoot uf (findN (Nat.find hex) uf i) := Nat.find_spec hex
  have hmin : ∀ k, k < Nat.find hex → ¬ isRoot uf (findN k uf i) :=
    fun k hk => Nat.find_min hex hk
  by_cases hsmall : Nat.find hex + 1 ≤ uf.length
  · exact ⟨Nat.find hex, hsmall, hm⟩
  · exfalso
    -- the chain's first `find+1` values all lie in `range length`, so two of
    -- them coincide; the chain is then periodic below `find`, contradicting
    -- the minimality of `find`
    have hmaps : ∀ t ∈ Finset.range (Nat.find hex + 1),
        findN t uf i ∈ Finset.range uf.length := by
      intro t _
      exact Finset.mem_range.mpr (findN_lt uf hwf t i hi)
    have hcard : (Finset.range uf.length).card < (Finset.range (Nat.find hex + 1)).card := by
      simp only [Finset.card_range]
      omega
    obtain ⟨s, hs, t, ht, hst, heq⟩ :=
      Finset.exists_ne_map_eq_of_card_lt_of_maps_to hcard hmaps
    rw [Finset.mem_range] at hs ht
    have key : ∀ p q, p < q → q ≤ Nat.find hex → findN p uf i = findN q uf i → False := by
      intro p q hpq hqm heq2
      have e1 : findN (Nat.find hex - (q - p)) uf i = findN (Nat.find hex) uf i :=
        calc findN (Nat.find hex - (q - p)) uf i
            = findN (p + (Nat.find hex - q)) uf i := by congr 1; omega
          _ = findN (Nat.find hex - q) uf (findN p uf i) := findN_add uf p _ i
          _ = findN (Nat.find hex - q) uf (findN q uf i) := by rw [heq2]
          _ = findN (q + (Nat.find hex - q)) uf i := (findN_add uf q _ i).symm
          _ = findN (Nat.find hex) uf i := by congr 1; omega
      exact hmin (Nat.find hex - (q - p)) (by omega) (by rw [e1]; exact hm)
    rcases Nat.lt_or_ge s t with hlt | hge
    · exact key s t hlt (by omega) heq
    · exact key t s (by omega) (by omega) heq.symm

end Minotaur

namespace Minotaur

/-! ### Union-find theory: path compression preserves the partition -/

theorem parentOf_set_ne (uf : List Int) (i x : Nat) (v : Int) (h : i ≠ x) :
    parentOf (uf.set i v) x = parentOf uf x := by
  unfold parentOf
  exact getD_set_ne uf i x v (-1) h

theorem parentOf_set_self (uf : List Int) (i : Nat) (v : Int) (hi : i < uf.length) :
    parentOf (uf.set i v) i = v := by
  unfold parentOf
  rw [getD_set_self, if_pos hi]

theorem set_root_findN (uf : List Int) (i r : Nat) (hwf : WFuf uf)
    (hi : i < uf.length) (hnr : ¬ isRoot uf i) (hr : rootD uf i = r) :
    ∀ k j, isRoot uf (findN k uf j) →
      findN k (uf.set i (Int.ofNat r)) j = findN k uf j ∧
      isRoot (uf.set i (Int.ofNat r)) (findN k uf j) := by
  have hri : isRoot uf r := hr ▸ rootD_isRoot uf hwf i hi
  have hrne : r ≠ i := fun h => hnr (h ▸ hri)
  intro k
  induction k with
  | zero =>
    intro j hj
    have hji : j ≠ i := fun h => hnr (h ▸ hj)
    refine ⟨rfl, ?_⟩
    show isRoot _ j
    unfold isRoot
    rw [parentOf_set_ne uf i j _ (fun h => hji h.symm)]
    exact hj
  | succ k ih =>
    intro j hj
    by_cases hjr : isRoot uf j
    · have hji : j ≠ i := fun h => hnr (h ▸ hjr)
      have hroot' : isRoot (uf.set i (Int.ofNat r)) j := by
        unfold isRoot
        rw [parentOf_set_ne uf i j _ (fun h => hji h.symm)]
        exact hjr
      rw [findN_isRoot_id uf j hjr]
      exact ⟨findN_isRoot_id _ j hroot' _, hroot'⟩
    · have hp : ¬ uf.getD j (-1) < 0 := hjr
      by_cases hji : j = i
      · subst hji
        -- the compressed entry points straight at the root
        have hstep : findN (k+1) uf j = rootD uf j := by
          rcases Nat.le_total (k+1) uf.length with hle | hle
          · exact (findN_stable uf j (k+1) uf.length hj hle).symm
          · exact findN_stable uf j uf.length (k+1) (hwf j hi).2 hle
        have hpar' : parentOf (uf.set j (Int.ofNat r)) j = Int.ofNat r :=
          parentOf_set_self uf j _ hi
        have hnew : findN (k+1) (uf.set j (Int.ofNat r)) j = findN k (uf.set j (Int.ofNat r)) r := by
          rw [findN_succ]
          have : ¬ (uf.set j (Int.ofNat r)).getD j (-1) < 0 := by
            show ¬ parentOf (uf.set j (Int.ofNat r)) j < 0
            rw [hpar']
            exact Int.not_lt.mpr (Int.ofNat_nonneg r)
          rw [if_neg this]
          congr 1
          show ((uf.set j (Int.ofNat r)).getD j (-1)).toNat = r
          rw [show (uf.set j (Int.ofNat r)).getD j (-1) = parentOf (uf.set j (Int.ofNat r)) j from rfl,
            hpar']
          exact Int.toNat_ofNat r
        obtain ⟨ihr1, ihr2⟩ := ih r (by rw [findN_isRoot_id uf r hri]; exact hri)
        rw [findN_isRoot_id uf r hri] at ihr1 ihr2
        refine ⟨?_, ?_⟩
        · rw [hnew, ihr1, hstep, hr]
        · rw [hstep, hr]
          exact ihr2
      · have hpar' : parentOf (uf.set i (Int.ofNat r)) j = parentOf uf j :=
          parentOf_set_ne uf i j _ (fun h => hji h.symm)
        have hold : findN (k+1) uf j = findN k uf (uf.getD j (-1)).toNat := by
          rw [findN_succ, if_neg hp]
        have hnew : findN (k+1) (uf.set i (Int.ofNat r)) j =
            findN k (uf.set i (Int.ofNat r)) (uf.getD j (-1)).toNat := by
          rw [findN_succ]
          have h1 : (uf.set i (Int.ofNat r)).getD j (-1) = uf.getD j (-1) := hpar'
          rw [h1, if_neg hp]
        rw [hold] at hj ⊢
        obtain ⟨e1, e2⟩ := ih _ hj
        rw [hnew, e1]
        exact ⟨rfl, e2⟩

theorem compress_spec (uf : List Int) (i r : Nat) (hwf : WFuf uf) (hi : i < uf.length)
    (hnr : ¬ isRoot uf i) (hr : rootD uf i = r) :
    (uf.set i (Int.ofNat r)).length = uf.length ∧
    WFuf (uf.set i (Int.ofNat r)) ∧
    (∀ j, rootD (uf.set i (Int.ofNat r)) j = rootD uf j) ∧
    (∀ x, isRoot (uf.set i (Int.ofNat r)) x ↔ isRoot uf x) := by
  have hlen : (uf.set i (Int.ofNat r)).length = uf.length := List.length_set uf i _
  have hiff : ∀ x, isRoot (uf.set i (Int.ofNat r)) x ↔ isRoot uf x := by
    intro x
    by_cases hx : x = i
    · subst hx
      unfold isRoot
      rw [parentOf_set_self uf x _ hi]
      constructor
      · intro h
        exact absurd h (Int.not_lt.mpr (Int.ofNat_nonneg r))
      · intro h
        exact absurd h hnr
    · unfold isRoot
      rw [parentOf_set_ne uf i x _ (fun h => hx h.symm)]
  have hroot : ∀ j, rootD (uf.set i (Int.ofNat r)) j = rootD uf j := by
    intro j
    by_cases hj : j < uf.length
    · have e := (set_root_findN uf i r hwf hi hnr hr uf.length j (hwf j hj).2).1
      unfold rootD
      rw [hlen, e]
    · rw [rootD_oob _ j (by omega), rootD_oob uf j (by omega)]
  refine ⟨hlen, ?_, hroot, hiff⟩
  intro x hx
  rw [hlen] at hx
  constructor
  · intro hpos
    by_cases hxi : x = i
    · subst hxi
      rw [parentOf_set_self uf x _ hi, hlen]
      show r < uf.length
      rw [← hr]
      exact rootD_lt uf hwf x hi
    · rw [parentOf_set_ne uf i x _ (fun h => hxi h.symm)] at hpos ⊢
      rw [hlen]
      exact (hwf x hx).1 hpos
  · have e := set_root_findN uf i r hwf hi hnr hr uf.length x (hwf x hx).2
    show isRoot _ (findN (uf.set i (Int.ofNat r)).length _ x)
    rw [hlen, e.1]
    exact e.2

end Minotaur

namespace Minotaur

theorem rootOf_succ (fuel : Nat) (uf : List Int) (index : Nat) :
    rootOf (fuel+1) uf index =
      if uf.getD index (-1) < 0 then (index, uf)
      else ((rootOf fuel uf (uf.getD index (-1)).toNat).1,
            (rootOf fuel uf (uf.getD index (-1)).toNat).2.set index
              (Int.ofNat (rootOf fuel uf (uf.getD index (-1)).toNat).1)) := rfl

/-- The executable `rootOf` (with path compression) returns the specified
root and preserves length, well-formedness, the whole partition and
root-ness of every cell. -/
theorem rootOf_spec : ∀ (fuel : Nat) (uf : List Int) (index : Nat), WFuf uf →
    index < uf.length → isRoot uf (findN fuel uf index) →
    (rootOf fuel uf index).1 = rootD uf index ∧
    (rootOf fuel uf index).2.length = uf.length ∧
    WFuf (rootOf fuel uf index).2 ∧
    (∀ j, rootD (rootOf fuel uf index).2 j = rootD uf j) ∧
    (∀ x, isRoot (rootOf fuel uf index).2 x ↔ isRoot uf x) := by
  intro fuel
  induction fuel with
  | zero =>
    intro uf index hwf hi hroot
    exact ⟨(rootD_of_isRoot uf index hroot).symm, rfl, hwf,
      fun j => rfl, fun x => Iff.rfl⟩
  | succ fuel ih =>
    intro uf index hwf hi hroot
    rw [rootOf_succ]
    by_cases hp : uf.getD index (-1) < 0
    · rw [if_pos hp]
      exact ⟨(rootD_of_isRoot uf index hp).symm, rfl, hwf,
        fun j => rfl, fun x => Iff.rfl⟩
    · rw [if_neg hp]
      have hpt : (uf.getD index (-1)).toNat < uf.length := by
        have := (hwf index hi).1
        unfold parentOf at this
        exact this (by omega)
      have hroot' : isRoot uf (findN fuel uf (uf.getD index (-1)).toNat) := by
        rw [findN_succ, if_neg hp] at hroot
        exact hroot
      obtain ⟨e1, e2, e3, e4, e5⟩ := ih uf (uf.getD index (-1)).toNat hwf hpt hroot'
      have hpar : rootD uf index = rootD uf (uf.getD index (-1)).toNat :=
        rootD_parent uf hwf index hi hp
      have hnr : ¬ isRoot uf index := hp
      have hnr2 : ¬ isRoot (rootOf fuel uf (uf.getD index (-1)).toNat).2 index :=
        fun h => hnr ((e5 index).mp h)
      have hi2 : index < (rootOf fuel uf (uf.getD index (-1)).toNat).2.length := by
        rw [e2]; exact hi
      have hr2 : rootD (rootOf fuel uf (uf.getD index (-1)).toNat).2 index =
          (rootOf fuel uf (uf.getD index (-1)).toNat).1 := by
        rw [e4 index, hpar, e1]
      obtain ⟨c1, c2, c3, c4⟩ :=
        compress_spec (rootOf fuel uf (uf.getD index (-1)).toNat).2 index
          (rootOf fuel uf (uf.getD index (-1)).toNat).1 e3 hi2 hnr2 hr2
      refine ⟨by rw [e1, hpar], by rw [c1, e2], c2, ?_, ?_⟩
      · intro j
        rw [c3 j, e4 j]
      · intro x
        exact (c4 x).trans (e5 x)

end Minotaur

namespace Minotaur

/-- After re-pointing root `loser` at root `winner` (and updating `winner`'s
size in place), chains behave as before except that they continue one step
from `loser` to `winner`. -/
theorem link_findN (uf uf' : List Int) (winner loser : Nat) (hwf : WFuf uf)
    (hrw : isRoot uf winner) (hrl : isRoot uf loser)
    (h'w : parentOf uf' winner < 0)
    (h'l : parentOf uf' loser = Int.ofNat winner)
    (h'other : ∀ x, x ≠ winner → x ≠ loser → parentOf uf' x = parentOf uf x) :
    ∀ k j, isRoot uf (findN k uf j) →
      findN (k+1) uf' j = (if findN k uf j = loser then winner else findN k uf j) ∧
      isRoot uf' (findN (k+1) uf' j) := by
  have hnn : ¬ Int.ofNat winner < 0 := Int.not_lt.mpr (Int.ofNat_nonneg winner)
  have hstep_loser : ∀ k, findN (k+1) uf' loser = findN k uf' winner := by
    intro k
    rw [findN_succ]
    have h1 : uf'.getD loser (-1) = Int.ofNat winner := h'l
    rw [h1, if_neg hnn]
    rfl
  intro k
  induction k with
  | zero =>
    intro j hj
    by_cases hjl : j = loser
    · subst hjl
      have e : findN 1 uf' j = winner := by
        rw [hstep_loser 0]
        rfl
      rw [e]
      have : findN 0 uf j = j := rfl
      rw [this, if_pos rfl]
      exact ⟨rfl, h'w⟩
    · have hroot' : isRoot uf' j := by
        by_cases hjw : j = winner
        · subst hjw; exact h'w
        · show parentOf uf' j < 0
          rw [h'other j hjw hjl]
          exact hj
      have e : findN 1 uf' j = j := findN_isRoot_id uf' j hroot' 1
      rw [e]
      have : findN 0 uf j = j := rfl
      rw [this, if_neg hjl]
      exact ⟨rfl, hroot'⟩
  | succ k ih =>
    intro j hj
    by_cases hjr : isRoot uf j
    · rw [findN_isRoot_id uf j hjr]
      by_cases hjl : j = loser
      · subst hjl
        have hrw' : isRoot uf' winner := h'w
        have e : findN (k+1+1) uf' j = winner := by
          rw [hstep_loser (k+1), findN_isRoot_id uf' winner hrw']
        rw [e, if_pos rfl]
        exact ⟨rfl, h'w⟩
      · have hroot' : isRoot uf' j := by
          by_cases hjw : j = winner
          · subst hjw; exact h'w
          · show parentOf uf' j < 0
            rw [h'other j hjw hjl]
            exact hjr
        rw [findN_isRoot_id uf' j hroot', if_neg hjl]
        exact ⟨rfl, hroot'⟩
    · have hp : ¬ uf.getD j (-1) < 0 := hjr
      have hjw : j ≠ winner := fun h => hjr (h ▸ hrw)
      have hjl : j ≠ loser := fun h => hjr (h ▸ hrl)
      have hpar' : uf'.getD j (-1) = uf.getD j (-1) := h'other j hjw hjl
      have hold : findN (k+1) uf j = findN k uf (uf.getD j (-1)).toNat := by
        rw [findN_succ, if_neg hp]
      have hnew : findN (k+1+1) uf' j = findN (k+1) uf' (uf.getD j (-1)).toNat := by
        rw [findN_succ, hpar', if_neg hp]
      rw [hold] at hj ⊢
      obtain ⟨e1, e2⟩ := ih _ hj
      refine ⟨?_, ?_⟩
      · rw [hnew, e1]
      · rw [hnew]
        exact e2

/-- Linking root `loser` under root `winner` merges exactly the two classes
and removes exactly `loser` from the roots. -/
theorem link_spec (uf uf' : List Int) (winner loser : Nat) (hwf : WFuf uf)
    (hlen : uf'.length = uf.length)
    (hw : winner < uf.length) (hl : loser < uf.length)
    (hrw : isRoot uf winner) (hrl : isRoot uf loser) (hne : winner ≠ loser)
    (h'w : parentOf uf' winner < 0)
    (h'l : parentOf uf' loser = Int.ofNat winner)
    (h'other : ∀ x, x ≠ winner → x ≠ loser → parentOf uf' x = parentOf uf x) :
    WFuf uf' ∧
    (∀ j, rootD uf' j = if rootD uf j = loser then winner else rootD uf j) ∧
    (∀ x, isRoot uf' x ↔ (isRoot uf x ∧ x ≠ loser)) := by
  have hiff : ∀ x, isRoot uf' x ↔ (isRoot uf x ∧ x ≠ loser) := by
    intro x
    by_cases hxl : x = loser
    · subst hxl
      constructor
      · intro h
        have h2 : Int.ofNat winner < 0 := by
          have h3 : parentOf uf' x < 0 := h
          rwa [h'l] at h3
        exact absurd h2 (Int.not_lt.mpr (Int.ofNat_nonneg winner))
      · rintro ⟨-, h⟩
        exact absurd rfl h
    · by_cases hxw : x = winner
      · subst hxw
        exact ⟨fun _ => ⟨hrw, hxl⟩, fun _ => h'w⟩
      · constructor
        · intro h
          refine ⟨?_, hxl⟩
          show parentOf uf x < 0
          rw [← h'other x hxw hxl]
          exact h
        · rintro ⟨h, -⟩
          show parentOf uf' x < 0
          rw [h'other x hxw hxl]
          exact h
  have hwf' : WFuf uf' := by
    intro x hx
    rw [hlen] at hx
    constructor
    · intro hpos
      by_cases hxl : x = loser
      · subst hxl
        rw [h'l]
        show winner < uf'.length
        rw [hlen]
        exact hw
      · by_cases hxw : x = winner
        · subst hxw
          exact absurd h'w (by omega)
        · rw [h'other x hxw hxl] at hpos ⊢
          rw [hlen]
          exact (hwf x hx).1 hpos
    · obtain ⟨k, hk1, hkroot⟩ := chains_short uf hwf x hx
      obtain ⟨-, e2⟩ := link_findN uf uf' winner loser hwf hrw hrl h'w h'l h'other k x hkroot
      rw [findN_stable uf' x (k+1) uf'.length e2 (by omega)]
      exact e2
  refine ⟨hwf', ?_, hiff⟩
  intro j
  by_cases hj : j < uf.length
  · obtain ⟨k, hk1, hkroot⟩ := chains_short uf hwf j hj
    obtain ⟨e1, e2⟩ := link_findN uf uf' winner loser hwf hrw hrl h'w h'l h'other k j hkroot
    have hrj : rootD uf j = findN k uf j :=
      findN_stable uf j k uf.length hkroot (by omega)
    have hrj' : rootD uf' j = findN (k+1) uf' j := by
      unfold rootD
      rw [hlen]
      exact findN_stable uf' j (k+1) uf.length e2 (by omega)
    rw [hrj, hrj', e1]
  · have h1 : rootD uf' j = j := rootD_oob uf' j (by omega)
    have h2 : rootD uf j = j := rootD_oob uf j (by omega)
    rw [h1, h2, if_neg (by omega)]

end Minotaur

namespace Minotaur

theorem getD_zero_eq_parentOf (l : List Int) (x : Nat) (h : x < l.length) :
    l.getD x 0 = parentOf l x := by
  unfold parentOf
  rw [List.getD_eq_getElem _ _ h, List.getD_eq_getElem _ _ h]

theorem unionIfDisconnected_eq (uf : List Int) (aIndex bIndex : Nat) :
    unionIfDisconnected uf aIndex bIndex =
      (if (rootOf uf.length uf aIndex).1 =
          (rootOf (rootOf uf.length uf aIndex).2.length (rootOf uf.length uf aIndex).2 bIndex).1
       then (false,
         (rootOf (rootOf uf.length uf aIndex).2.length (rootOf uf.length uf aIndex).2 bIndex).2)
       else
         if ((rootOf (rootOf uf.length uf aIndex).2.length (rootOf uf.length uf aIndex).2 bIndex).2.getD
               (rootOf uf.length uf aIndex).1 0) <
            ((rootOf (rootOf uf.length uf aIndex).2.length (rootOf uf.length uf aIndex).2 bIndex).2.getD
               (rootOf (rootOf uf.length uf aIndex).2.length (rootOf uf.length uf aIndex).2 bIndex).1 0)
         then (true,
           (((rootOf (rootOf uf.length uf aIndex).2.length (rootOf uf.length uf aIndex).2 bIndex).2.set
               (rootOf uf.length uf aIndex).1
               (((rootOf (rootOf uf.length uf aIndex).2.length (rootOf uf.length uf aIndex).2 bIndex).2.getD
                   (rootOf uf.length uf aIndex).1 0) +
                ((rootOf (rootOf uf.length uf aIndex).2.length (rootOf uf.length uf aIndex).2 bIndex).2.getD
                   (rootOf (rootOf uf.length uf aIndex).2.length (rootOf uf.length uf aIndex).2 bIndex).1 0))).set
              (rootOf (rootOf uf.length uf aIndex).2.length (rootOf uf.length uf aIndex).2 bIndex).1
              (Int.ofNat (rootOf uf.length uf aIndex).1)))
         else (true,
           (((rootOf (rootOf uf.length uf aIndex).2.length (rootOf uf.length uf aIndex).2 bIndex).2.set
               (rootOf uf.length uf aIndex).1
               (Int.ofNat (rootOf (rootOf uf.length uf aIndex).2.length (rootOf uf.length uf aIndex).2 bIndex).1)).set
              (rootOf (rootOf uf.length uf aIndex).2.length (rootOf uf.length uf aIndex).2 bIndex).1
              (((rootOf (rootOf uf.length uf aIndex).2.length (rootOf uf.length uf aIndex).2 bIndex).2.getD
                  (rootOf uf.length uf aIndex).1 0) +
               ((rootOf (rootOf uf.length uf aIndex).2.length (rootOf uf.length uf aIndex).2 bIndex).2.getD
                  (rootOf (rootOf uf.length uf aIndex).2.length (rootOf uf.length uf aIndex).2 bIndex).1 0))))) := rfl

/-- The first merge order of `unionIfDisconnected` (`aNegSize < bNegSize`):
the winner keeps its slot (updated size), the loser points at the winner. -/
theorem link_orderA (base : List Int) (winner loser : Nat) (hwfb : WFuf base)
    (hw : winner < base.length) (hl : loser < base.length)
    (hrw : isRoot base winner) (hrl : isRoot base loser) (hne : winner ≠ loser) :
    WFuf ((base.set winner (base.getD winner 0 + base.getD loser 0)).set loser
        (Int.ofNat winner)) ∧
    (∀ j, rootD ((base.set winner (base.getD winner 0 + base.getD loser 0)).set loser
        (Int.ofNat winner)) j = if rootD base j = loser then winner else rootD base j) ∧
    (∀ x, isRoot ((base.set winner (base.getD winner 0 + base.getD loser 0)).set loser
        (Int.ofNat winner)) x ↔ (isRoot base x ∧ x ≠ loser)) := by
  have hwneg : base.getD winner 0 < 0 := by
    rw [getD_zero_eq_parentOf _ _ hw]
    exact hrw
  have hlneg : base.getD loser 0 < 0 := by
    rw [getD_zero_eq_parentOf _ _ hl]
    exact hrl
  exact link_spec base _ winner loser hwfb
    (by rw [List.length_set, List.length_set]) hw hl hrw hrl hne
    (by
      rw [parentOf_set_ne _ _ _ _ (fun h => hne h.symm), parentOf_set_self _ _ _ hw]
      omega)
    (parentOf_set_self _ _ _ (by rw [List.length_set]; exact hl))
    (fun x hxw hxl => by
      rw [parentOf_set_ne _ _ _ _ (fun h => hxl h.symm),
        parentOf_set_ne _ _ _ _ (fun h => hxw h.symm)])

/-- The second merge order of `unionIfDisconnected` (`aNegSize ≥ bNegSize`):
the loser is re-pointed first, then the winner's size is updated. -/
theorem link_orderB (base : List Int) (winner loser : Nat) (hwfb : WFuf base)
    (hw : winner < base.length) (hl : loser < base.length)
    (hrw : isRoot base winner) (hrl : isRoot base loser) (hne : winner ≠ loser) :
    WFuf ((base.set loser (Int.ofNat winner)).set winner
        (base.getD loser 0 + base.getD winner 0)) ∧
    (∀ j, rootD ((base.set loser (Int.ofNat winner)).set winner
        (base.getD loser 0 + base.getD winner 0)) j =
      if rootD base j = loser then winner else rootD base j) ∧
    (∀ x, isRoot ((base.set loser (Int.ofNat winner)).set winner
        (base.getD loser 0 + base.getD winner 0)) x ↔ (isRoot base x ∧ x ≠ loser)) := by
  have hwneg : base.getD winner 0 < 0 := by
    rw [getD_zero_eq_parentOf _ _ hw]
    exact hrw
  have hlneg : base.getD loser 0 < 0 := by
    rw [getD_zero_eq_parentOf _ _ hl]
    exact hrl
  exact link_spec base _ winner loser hwfb
    (by rw [List.length_set, List.length_set]) hw hl hrw hrl hne
    (by
      rw [parentOf_set_self _ _ _ (by rw [List.length_set]; exact hw)]
      omega)
    (by
      rw [parentOf_set_ne _ _ _ _ hne, parentOf_set_self _ _ _ hl])
    (fun x hxw hxl => by
      rw [parentOf_set_ne _ _ _ _ (fun h => hxw h.symm),
        parentOf_set_ne _ _ _ _ (fun h => hxl h.symm)])

/-- `unionIfDisconnected` either reports an already-merged pair and leaves
the partition unchanged, or merges exactly the two root classes. -/
theorem union_spec (uf : List Int) (aIndex bIndex : Nat) (hwf : WFuf uf)
    (ha : aIndex < uf.length) (hb : bIndex < uf.length) :
    (unionIfDisconnected uf aIndex bIndex).2.length = uf.length ∧
    WFuf (unionIfDisconnected uf aIndex bIndex).2 ∧
    ((unionIfDisconnected uf aIndex bIndex).1 = false →
      rootD uf aIndex = rootD uf bIndex ∧
      (∀ j, rootD (unionIfDisconnected uf aIndex bIndex).2 j = rootD uf j) ∧
      (∀ x, isRoot (unionIfDisconnected uf aIndex bIndex).2 x ↔ isRoot uf x)) ∧
    ((unionIfDisconnected uf aIndex bIndex).1 = true →
      rootD uf aIndex ≠ rootD uf bIndex ∧
      ∃ winner loser : Nat, winner ≠ loser ∧ loser < uf.length ∧
        ((winner = rootD uf aIndex ∧ loser = rootD uf bIndex) ∨
         (winner = rootD uf bIndex ∧ loser = rootD uf aIndex)) ∧
        (∀ j, rootD (unionIfDisconnected uf aIndex bIndex).2 j =
          if rootD uf j = loser then winner else rootD uf j) ∧
        (∀ x, isRoot (unionIfDisconnected uf aIndex bIndex).2 x ↔
          (isRoot uf x ∧ x ≠ loser))) := by
  obtain ⟨a1, a2, a3, a4, a5⟩ := rootOf_spec uf.length uf aIndex hwf ha (hwf _ ha).2
  have hb2 : bIndex < (rootOf uf.length uf aIndex).2.length := by rw [a2]; exact hb
  obtain ⟨b1, b2, b3, b4, b5⟩ := rootOf_spec (rootOf uf.length uf aIndex).2.length
    (rootOf uf.length uf aIndex).2 bIndex a3 hb2 (a3 _ hb2).2
  have hA : (rootOf uf.length uf aIndex).1 = rootD uf aIndex := a1
  have hB : (rootOf (rootOf uf.length uf aIndex).2.length (rootOf uf.length uf aIndex).2 bIndex).1 =
      rootD uf bIndex := by rw [b1, a4]
  have hlenb : (rootOf (rootOf uf.length uf aIndex).2.length (rootOf uf.length uf aIndex).2 bIndex).2.length =
      uf.length := by rw [b2, a2]
  have hrootb : ∀ j, rootD (rootOf (rootOf uf.length uf aIndex).2.length (rootOf uf.length uf aIndex).2 bIndex).2 j =
      rootD uf j := fun j => (b4 j).trans (a4 j)
  have hiffb : ∀ x, isRoot (rootOf (rootOf uf.length uf aIndex).2.length (rootOf uf.length uf aIndex).2 bIndex).2 x ↔
      isRoot uf x := fun x => (b5 x).trans (a5 x)
  rw [unionIfDisconnected_eq]
  by_cases heq : (rootOf uf.length uf aIndex).1 =
      (rootOf (rootOf uf.length uf aIndex).2.length (rootOf uf.length uf aIndex).2 bIndex).1
  · rw [if_pos heq]
    refine ⟨hlenb, b3, fun _ => ⟨?_, hrootb, hiffb⟩, fun hcon => Bool.noConfusion hcon⟩
    rw [← hA, ← hB, heq]
  · rw [if_neg heq]
    have hABne : rootD uf aIndex ≠ rootD uf bIndex := by
      rw [← hA, ← hB]; exact heq
    have hAlt : rootD uf aIndex < uf.length := rootD_lt uf hwf aIndex ha
    have hBlt : rootD uf bIndex < uf.length := rootD_lt uf hwf bIndex hb
    have hArootuf : isRoot uf (rootD uf aIndex) := rootD_isRoot uf hwf aIndex ha
    have hBrootuf : isRoot uf (rootD uf bIndex) := rootD_isRoot uf hwf bIndex hb
    have hAroot : isRoot (rootOf (rootOf uf.length uf aIndex).2.length (rootOf uf.length uf aIndex).2 bIndex).2
        (rootD uf aIndex) := (hiffb _).mpr hArootuf
    have hBroot : isRoot (rootOf (rootOf uf.length uf aIndex).2.length (rootOf uf.length uf aIndex).2 bIndex).2
        (rootD uf bIndex) := (hiffb _).mpr hBrootuf
    have hAltb : rootD uf aIndex <
        (rootOf (rootOf uf.length uf aIndex).2.length (rootOf uf.length uf aIndex).2 bIndex).2.length := by
      rw [hlenb]; exact hAlt
    have hBltb : rootD uf bIndex <
        (rootOf (rootOf uf.length uf aIndex).2.length (rootOf uf.length uf aIndex).2 bIndex).2.length := by
      rw [hlenb]; exact hBlt
    rw [hA, hB]
    by_cases hlt : (rootOf (rootOf uf.length uf aIndex).2.length (rootOf uf.length uf aIndex).2 bIndex).2.getD
        (rootD uf aIndex) 0 <
        (rootOf (rootOf uf.length uf aIndex).2.length (rootOf uf.length uf aIndex).2 bIndex).2.getD
        (rootD uf bIndex) 0
    · rw [if_pos hlt]
      obtain ⟨l1, l2, l3⟩ := link_orderA _ _ _ b3 hAltb hBltb hAroot hBroot hABne
      refine ⟨by rw [List.length_set, List.length_set, hlenb], l1,
        fun hcon => Bool.noConfusion hcon,
        fun _ => ⟨hABne, rootD uf aIndex, rootD uf bIndex,
          hABne, hBlt, Or.inl ⟨rfl, rfl⟩, ?_, ?_⟩⟩
      · intro j
        rw [l2 j, hrootb j]
      · intro x
        rw [l3 x, hiffb x]
    · rw [if_neg hlt]
      obtain ⟨l1, l2, l3⟩ := link_orderB _ _ _ b3 hBltb hAltb hBroot hAroot
        (fun h => hABne h.symm)
      refine ⟨by rw [List.length_set, List.length_set, hlenb], l1,
        fun hcon => Bool.noConfusion hcon,
        fun _ => ⟨hABne, rootD uf bIndex, rootD uf aIndex,
          fun h => hABne h.symm, hAlt, Or.inr ⟨rfl, rfl⟩, ?_, ?_⟩⟩
      · intro j
        rw [l2 j, hrootb j]
      · intro x
        rw [l3 x, hiffb x]

end Minotaur

namespace Minotaur

/-! ### Graph lemmas -/

theorem mazeAdjRel_initial (side : Nat) (x y : Nat) :
    ¬ mazeAdjRel side (initialMaze side) x y := by
  rintro ⟨hxn, h | h⟩
  · obtain ⟨h1, h2, h3⟩ := h
    rw [initialMaze_getD, if_pos hxn] at h3
    by_cases hg : x = side / 2
    · rw [if_pos hg] at h3
      exact absurd h3 (by decide)
    · rw [if_neg hg] at h3
      exact absurd h3 (by decide)
  · obtain ⟨h1, h2, h3⟩ := h
    have hside : side ≠ 0 := by
      rintro rfl
      omega
    have hg : x ≠ side / 2 := by
      have : side / 2 < side := Nat.div_lt_self (by omega) (by omega)
      omega
    rw [initialMaze_getD, if_pos hxn, if_neg hg] at h3
    exact absurd h3 (by decide)

theorem mazeGraph_initial (side : Nat) : mazeGraph side (initialMaze side) = ⊥ := by
  ext a b
  rw [mazeGraph, SimpleGraph.fromRel_adj]
  simp only [SimpleGraph.bot_adj, iff_false]
  rintro ⟨hne, h | h⟩
  · exact mazeAdjRel_initial side _ _ h
  · exact mazeAdjRel_initial side _ _ h

/-- Clearing the west bit of cell `idx` adds exactly the west edge of `idx`
to the adjacency relation. -/
theorem mazeAdjRel_set_west (side : Nat) (maze : List Nat) (idx : Nat)
    (hlen : maze.length = side * side) (hidx : idx < side * side)
    (hmod : idx % side ≠ 0) (hbit : maze.getD idx 0 &&& BLOCKS_WEST ≠ 0) :
    ∀ x y, mazeAdjRel side (maze.set idx (clearWest (maze.getD idx 0))) x y ↔
      (mazeAdjRel side maze x y ∨ (x = idx ∧ y = idx - 1)) := by
  have hidx1 : 1 ≤ idx := by
    rcases Nat.eq_zero_or_pos idx with h | h
    · subst h
      simp at hmod
    · exact h
  intro x y
  unfold mazeAdjRel
  simp only [BLOCKS_WEST, BLOCKS_SOUTH] at hbit ⊢
  by_cases hx : x = idx
  · subst hx
    rw [getD_set_self, if_pos (by rw [hlen]; exact hidx)]
    constructor
    · rintro ⟨hxn, h | h⟩
      · exact Or.inr ⟨rfl, by omega⟩
      · refine Or.inl ⟨hxn, Or.inr ⟨h.1, h.2.1, ?_⟩⟩
        rw [← clearWest_bit1 (maze.getD x 0)]
        exact h.2.2
    · rintro (⟨hxn, h | h⟩ | ⟨-, hy⟩)
      · exact absurd h.2.2 hbit
      · refine ⟨hxn, Or.inr ⟨h.1, h.2.1, ?_⟩⟩
        rw [clearWest_bit1]
        exact h.2.2
      · exact ⟨hidx, Or.inl ⟨by omega, hmod, clearWest_bit0 _⟩⟩
  · rw [getD_set_ne _ _ _ _ _ (fun h => hx h.symm)]
    constructor
    · intro h
      exact Or.inl h
    · rintro (h | ⟨hxi, -⟩)
      · exact h
      · exact absurd hxi hx

/-- Clearing the south bit of cell `idx` adds exactly the south edge of
`idx` to the adjacency relation. -/
theorem mazeAdjRel_set_south (side : Nat) (maze : List Nat) (idx : Nat)
    (hlen : maze.length = side * side) (hidx : idx < side * side)
    (hge : side ≤ idx) (hbit : maze.getD idx 0 &&& BLOCKS_SOUTH ≠ 0) :
    ∀ x y, mazeAdjRel side (maze.set idx (clearSouth (maze.getD idx 0))) x y ↔
      (mazeAdjRel side maze x y ∨ (x = idx ∧ y = idx - side)) := by
  have hside : 1 ≤ side := by
    rcases Nat.eq_zero_or_pos side with h | h
    · subst h
      omega
    · exact h
  intro x y
  unfold mazeAdjRel
  simp only [BLOCKS_WEST, BLOCKS_SOUTH] at hbit ⊢
  by_cases hx : x = idx
  · subst hx
    rw [getD_set_self, if_pos (by rw [hlen]; exact hidx)]
    constructor
    · rintro ⟨hxn, h | h⟩
      · refine Or.inl ⟨hxn, Or.inl ⟨h.1, h.2.1, ?_⟩⟩
        rw [← clearSouth_bit0 (maze.getD x 0)]
        exact h.2.2
      · exact Or.inr ⟨rfl, by omega⟩
    · rintro (⟨hxn, h | h⟩ | ⟨-, hy⟩)
      · refine ⟨hxn, Or.inl ⟨h.1, h.2.1, ?_⟩⟩
        rw [clearSouth_bit0]
        exact h.2.2
      · exact absurd h.2.2 hbit
      · exact ⟨hidx, Or.inr ⟨by omega, hge, clearSouth_bit1 _⟩⟩
  · rw [getD_set_ne _ _ _ _ _ (fun h => hx h.symm)]
    constructor
    · intro h
      exact Or.inl h
    · rintro (h | ⟨hxi, -⟩)
      · exact h
      · exact absurd hxi hx

end Minotaur

namespace Minotaur

theorem mazeGraph_set_west (side : Nat) (maze : List Nat) (idx : Nat)
    (hlen : maze.length = side * side) (hidx : idx < side * side)
    (hjdx : idx - 1 < side * side)
    (hmod : idx % side ≠ 0) (hbit : maze.getD idx 0 &&& BLOCKS_WEST ≠ 0) :
    mazeGraph side (maze.set idx (clearWest (maze.getD idx 0))) =
      mazeGraph side maze ⊔
        SimpleGraph.fromEdgeSet
          {s((⟨idx, hidx⟩ : Fin (side*side)), ⟨idx - 1, hjdx⟩)} := by
  have hrel := mazeAdjRel_set_west side maze idx hlen hidx hmod hbit
  ext a b
  simp only [mazeGraph, SimpleGraph.fromRel_adj, SimpleGraph.sup_adj,
    SimpleGraph.fromEdgeSet_adj, Set.mem_singleton_iff, Sym2.eq_iff, hrel,
    Fin.ext_iff]
  tauto

theorem mazeGraph_set_south (side : Nat) (maze : List Nat) (idx : Nat)
    (hlen : maze.length = side * side) (hidx : idx < side * side)
    (hjdx : idx - side < side * side)
    (hge : side ≤ idx) (hbit : maze.getD idx 0 &&& BLOCKS_SOUTH ≠ 0) :
    mazeGraph side (maze.set idx (clearSouth (maze.getD idx 0))) =
      mazeGraph side maze ⊔
        SimpleGraph.fromEdgeSet
          {s((⟨idx, hidx⟩ : Fin (side*side)), ⟨idx - side, hjdx⟩)} := by
  have hrel := mazeAdjRel_set_south side maze idx hlen hidx hge hbit
  ext a b
  simp only [mazeGraph, SimpleGraph.fromRel_adj, SimpleGraph.sup_adj,
    SimpleGraph.fromEdgeSet_adj, Set.mem_singleton_iff, Sym2.eq_iff, hrel,
    Fin.ext_iff]
  tauto

/-- Adding one edge between two cells that are not yet connected keeps the
graph acyclic. -/
theorem isAcyclic_sup_edge {n : Nat} (G : SimpleGraph (Fin n)) (a b : Fin n)
    (hacyc : G.IsAcyclic) (hnr : ¬ G.Reachable a b) :
    (G ⊔ SimpleGraph.fromEdgeSet {s(a, b)}).IsAcyclic := by
  intro v c hc
  by_cases he : s(a, b) ∈ c.edges
  · obtain ⟨hadj, hreach⟩ :=
      SimpleGraph.adj_and_reachable_delete_edges_iff_exists_cycle.mpr ⟨v, c, hc, he⟩
    refine hnr (hreach.mono ?_)
    calc (G ⊔ SimpleGraph.fromEdgeSet {s(a,b)}) \ SimpleGraph.fromEdgeSet {s(a,b)}
        = G \ SimpleGraph.fromEdgeSet {s(a,b)} := sup_sdiff_right_self
      _ ≤ G := sdiff_le
  · have hsub : ∀ e ∈ c.edges, e ∈ G.edgeSet := by
      intro e hee
      have h2 := c.edges_subset_edgeSet hee
      rw [SimpleGraph.edgeSet_sup] at h2
      rcases h2 with h2 | h2
      · exact h2
      · rw [SimpleGraph.edgeSet_fromEdgeSet] at h2
        obtain ⟨h3, -⟩ := h2
        rw [Set.mem_singleton_iff] at h3
        exact absurd (h3 ▸ hee) he
    exact hacyc (c.transfer G hsub) (hc.transfer hsub)

/-- A vertex labelling constant on edges and on the added pair is constant
on reachability classes of the enlarged graph. -/
theorem reachable_sup_single {n : Nat} (G : SimpleGraph (Fin n)) (a b : Fin n)
    (P : Fin n → Nat) (hG : ∀ x y, G.Adj x y → P x = P y) (hab : P a = P b) :
    ∀ u v, (G ⊔ SimpleGraph.fromEdgeSet {s(a, b)}).Reachable u v → P u = P v := by
  intro u v huv
  obtain ⟨w⟩ := huv
  induction w with
  | nil => rfl
  | cons hadj w ih =>
    refine Eq.trans ?_ ih
    rw [SimpleGraph.sup_adj, SimpleGraph.fromEdgeSet_adj, Set.mem_singleton_iff] at hadj
    rcases hadj with h | ⟨h, -⟩
    · exact hG _ _ h
    · rw [Sym2.eq_iff] at h
      rcases h with ⟨rfl, rfl⟩ | ⟨rfl, rfl⟩
      · exact hab
      · exact hab.symm

/-- If the adjacency of `M` is that of `G` plus the single pair `(a, b)`,
the edge finset of `M` is that of `G` plus `s(a,b)`. -/
theorem edgeFinset_eq_insert {n : Nat} (M G : SimpleGraph (Fin n))
    [DecidableRel M.Adj] [DecidableRel G.Adj]
    (a b : Fin n) (hab : a ≠ b) (hnadj : ¬ G.Adj a b)
    (h : ∀ x y, M.Adj x y ↔ (G.Adj x y ∨ (x = a ∧ y = b) ∨ (x = b ∧ y = a))) :
    M.edgeFinset = insert s(a, b) G.edgeFinset ∧ s(a, b) ∉ G.edgeFinset := by
  constructor
  · ext e
    refine Sym2.ind (fun x y => ?_) e
    rw [SimpleGraph.mem_edgeFinset, Finset.mem_insert, SimpleGraph.mem_edgeFinset,
      SimpleGraph.mem_edgeSet, SimpleGraph.mem_edgeSet, Sym2.eq_iff, h]
    tauto
  · rw [SimpleGraph.mem_edgeFinset, SimpleGraph.mem_edgeSet]
    exact hnadj

end Minotaur

namespace Minotaur

theorem processConn_eq (side : Nat) (st : List Int × List Nat) (conn : Nat) :
    processConn side st conn =
      if conn % 2 = 1 then
        if (conn / 2) % side = 0 then st
        else ((unionIfDisconnected st.1 (conn/2) (conn/2 - 1)).2,
          if (unionIfDisconnected st.1 (conn/2) (conn/2 - 1)).1
          then st.2.set (conn/2) (clearWest (st.2.getD (conn/2) 0)) else st.2)
      else
        if conn / 2 < side then st
        else ((unionIfDisconnected st.1 (conn/2) (conn/2 - side)).2,
          if (unionIfDisconnected st.1 (conn/2) (conn/2 - side)).1
          then st.2.set (conn/2) (clearSouth (st.2.getD (conn/2) 0)) else st.2) := rfl

theorem connJoined_of_rootD_eq (side : Nat) (uf uf' : List Int)
    (h : ∀ j, rootD uf' j = rootD uf j) (c : Nat) (hc : connJoined side uf c) :
    connJoined side uf' c := by
  constructor
  · intro h1 h2
    rw [h, h]
    exact hc.1 h1 h2
  · intro h1 h2
    rw [h, h]
    exact hc.2 h1 h2

theorem connJoined_collapse (side : Nat) (uf uf' : List Int) (winner loser : Nat)
    (upres : ∀ j, rootD uf' j = if rootD uf j = loser then winner else rootD uf j)
    (c : Nat) (hc : connJoined side uf c) : connJoined side uf' c := by
  constructor
  · intro h1 h2
    rw [upres, upres, hc.1 h1 h2]
  · intro h1 h2
    rw [upres, upres, hc.2 h1 h2]

theorem rootFilter_congr (n : Nat) (uf uf' : List Int)
    (h : ∀ x, isRoot uf' x ↔ isRoot uf x) :
    (Finset.range n).filter (fun i => isRoot uf' i) =
      (Finset.range n).filter (fun i => isRoot uf i) := by
  ext x
  simp only [Finset.mem_filter]
  rw [h x]

theorem rootFilter_erase (n : Nat) (uf uf' : List Int) (loser : Nat)
    (h : ∀ x, isRoot uf' x ↔ (isRoot uf x ∧ x ≠ loser)) :
    (Finset.range n).filter (fun i => isRoot uf' i) =
      ((Finset.range n).filter (fun i => isRoot uf i)).erase loser := by
  ext x
  simp only [Finset.mem_filter, Finset.mem_erase]
  rw [h x]
  tauto

/-- Updating the partition invariant across a merged edge. -/
theorem partition_link {n : Nat} (G : SimpleGraph (Fin n)) (uf uf' : List Int)
    (iF jF : Fin n) (winner loser : Nat)
    (hpart : ∀ a b : Fin n, rootD uf ↑a = rootD uf ↑b ↔ G.Reachable a b)
    (hwl : winner ≠ loser)
    (hcases : (winner = rootD uf ↑iF ∧ loser = rootD uf ↑jF) ∨
              (winner = rootD uf ↑jF ∧ loser = rootD uf ↑iF))
    (upres : ∀ j, rootD uf' j = if rootD uf j = loser then winner else rootD uf j) :
    ∀ a b : Fin n, rootD uf' ↑a = rootD uf' ↑b ↔
      (G ⊔ SimpleGraph.fromEdgeSet {s(iF, jF)}).Reachable a b := by
  have hne' : iF ≠ jF := by
    intro h
    rw [h] at hcases
    rcases hcases with ⟨h1, h2⟩ | ⟨h1, h2⟩ <;> exact hwl (h1.trans h2.symm)
  have hedge : (G ⊔ SimpleGraph.fromEdgeSet {s(iF, jF)}).Reachable iF jF :=
    SimpleGraph.Adj.reachable (by
      rw [SimpleGraph.sup_adj, SimpleGraph.fromEdgeSet_adj]
      exact Or.inr ⟨Set.mem_singleton _, hne'⟩)
  intro a b
  constructor
  · intro hab
    rw [upres, upres] at hab
    by_cases ha : rootD uf ↑a = loser <;> by_cases hb : rootD uf ↑b = loser
    · exact ((hpart a b).mp (ha.trans hb.symm)).mono le_sup_left
    · rw [if_pos ha, if_neg hb] at hab
      rcases hcases with ⟨h1, h2⟩ | ⟨h1, h2⟩
      · have r1 : G.Reachable a jF := (hpart a jF).mp (by rw [ha, h2])
        have r2 : G.Reachable b iF := (hpart b iF).mp (by rw [← hab, h1])
        exact ((r1.mono le_sup_left).trans hedge.symm).trans (r2.mono le_sup_left).symm
      · have r1 : G.Reachable a iF := (hpart a iF).mp (by rw [ha, h2])
        have r2 : G.Reachable b jF := (hpart b jF).mp (by rw [← hab, h1])
        exact ((r1.mono le_sup_left).trans hedge).trans (r2.mono le_sup_left).symm
    · rw [if_neg ha, if_pos hb] at hab
      rcases hcases with ⟨h1, h2⟩ | ⟨h1, h2⟩
      · have r1 : G.Reachable a iF := (hpart a iF).mp (by rw [hab, h1])
        have r2 : G.Reachable b jF := (hpart b jF).mp (by rw [hb, h2])
        exact ((r1.mono le_sup_left).trans hedge).trans (r2.mono le_sup_left).symm
      · have r1 : G.Reachable a jF := (hpart a jF).mp (by rw [hab, h1])
        have r2 : G.Reachable b iF := (hpart b iF).mp (by rw [hb, h2])
        exact ((r1.mono le_sup_left).trans hedge.symm).trans (r2.mono le_sup_left).symm
    · rw [if_neg ha, if_neg hb] at hab
      exact ((hpart a b).mp hab).mono le_sup_left
  · intro hr
    refine reachable_sup_single G iF jF (fun x => rootD uf' ↑x) ?_ ?_ a b hr
    · intro x y hxy
      show rootD uf' ↑x = rootD uf' ↑y
      rw [upres, upres, (hpart x y).mpr hxy.reachable]
    · show rootD uf' ↑iF = rootD uf' ↑jF
      rw [upres, upres]
      rcases hcases with ⟨h1, h2⟩ | ⟨h1, h2⟩
      · rw [if_neg (by rw [← h1]; exact fun hc => hwl hc), if_pos h2.symm, ← h1]
      · rw [if_pos h2.symm, if_neg (by rw [← h1]; exact fun hc => hwl hc), ← h1]
  
end Minotaur

namespace Minotaur

/-- Re-establishing the invariant after a successful union and wall clear. -/
theorem inv_update_true (side : Nat) (uf uf' : List Int) (maze maze' : List Nat)
    (idx jdx : Nat) (hidxn : idx < side * side) (hjdxn : jdx < side * side)
    (hufLen : uf.length = side * side) (hmazeLen : maze.length = side * side)
    (hwf : WFuf uf) (hwf' : WFuf uf') (hufLen' : uf'.length = uf.length)
    (hmazeLen' : maze'.length = side * side)
    (hpart : ∀ a b : Fin (side*side),
      rootD uf ↑a = rootD uf ↑b ↔ (mazeGraph side maze).Reachable a b)
    (hcount : (mazeGraph side maze).edgeFinset.card +
      ((Finset.range (side*side)).filter (fun i => isRoot uf i)).card = side * side)
    (hacyc : (mazeGraph side maze).IsAcyclic)
    (hne : rootD uf idx ≠ rootD uf jdx)
    (winner loser : Nat) (hwl : winner ≠ loser) (hloserlt : loser < uf.length)
    (hcases : (winner = rootD uf idx ∧ loser = rootD uf jdx) ∨
              (winner = rootD uf jdx ∧ loser = rootD uf idx))
    (upres : ∀ j, rootD uf' j = if rootD uf j = loser then winner else rootD uf j)
    (uiff : ∀ x, isRoot uf' x ↔ (isRoot uf x ∧ x ≠ loser))
    (hgeq : mazeGraph side maze' = mazeGraph side maze ⊔
      SimpleGraph.fromEdgeSet {s((⟨idx, hidxn⟩ : Fin (side*side)), ⟨jdx, hjdxn⟩)}) :
    MazeInv side uf' maze' := by
  have hfne : (⟨idx, hidxn⟩ : Fin (side*side)) ≠ ⟨jdx, hjdxn⟩ := by
    intro h
    have h2 : idx = jdx := congrArg Fin.val h
    rw [h2] at hne
    exact hne rfl
  have hnreach : ¬ (mazeGraph side maze).Reachable ⟨idx, hidxn⟩ ⟨jdx, hjdxn⟩ :=
    fun hr => hne ((hpart _ _).mpr hr)
  have hnadj : ¬ (mazeGraph side maze).Adj ⟨idx, hidxn⟩ ⟨jdx, hjdxn⟩ :=
    fun ha => hnreach ha.reachable
  have hadj_iff : ∀ x y : Fin (side*side), (mazeGraph side maze').Adj x y ↔
      ((mazeGraph side maze).Adj x y ∨ (x = ⟨idx, hidxn⟩ ∧ y = ⟨jdx, hjdxn⟩) ∨
       (x = ⟨jdx, hjdxn⟩ ∧ y = ⟨idx, hidxn⟩)) := by
    intro x y
    rw [hgeq, SimpleGraph.sup_adj, SimpleGraph.fromEdgeSet_adj, Set.mem_singleton_iff,
      Sym2.eq_iff]
    constructor
    · rintro (h | ⟨h | h, -⟩)
      · exact Or.inl h
      · exact Or.inr (Or.inl h)
      · exact Or.inr (Or.inr h)
    · rintro (h | h | h)
      · exact Or.inl h
      · exact Or.inr ⟨Or.inl h, by rw [h.1, h.2]; exact hfne⟩
      · exact Or.inr ⟨Or.inr h, by rw [h.1, h.2]; exact hfne.symm⟩
  obtain ⟨hEF, hnotmem⟩ := edgeFinset_eq_insert (mazeGraph side maze') (mazeGraph side maze)
    _ _ hfne hnadj hadj_iff
  have hloser_root : isRoot uf loser := by
    rcases hcases with ⟨-, h2⟩ | ⟨-, h2⟩
    · rw [h2]
      exact rootD_isRoot uf hwf jdx (by rw [hufLen]; exact hjdxn)
    · rw [h2]
      exact rootD_isRoot uf hwf idx (by rw [hufLen]; exact hidxn)
  have hloser_mem : loser ∈ (Finset.range (side*side)).filter (fun i => isRoot uf i) := by
    rw [Finset.mem_filter, Finset.mem_range]
    exact ⟨by rw [← hufLen]; exact hloserlt, hloser_root⟩
  refine ⟨hufLen'.trans hufLen, hmazeLen', hwf', ?_, ?_, ?_⟩
  · intro a b
    rw [hgeq]
    exact partition_link (mazeGraph side maze) uf uf' _ _ winner loser hpart hwl
      (by exact hcases) upres a b
  · rw [hEF, Finset.card_insert_of_not_mem hnotmem,
      rootFilter_erase (side*side) uf uf' loser uiff,
      Finset.card_erase_of_mem hloser_mem]
    have hpos : 0 < ((Finset.range (side*side)).filter (fun i => isRoot uf i)).card :=
      Finset.card_pos.mpr ⟨loser, hloser_mem⟩
    omega
  · rw [hgeq]
    exact isAcyclic_sup_edge _ _ _ hacyc hnreach

/-- One step of the shuffled pass preserves the invariant, preserves every
already-joined connection, and joins the processed connection. -/
theorem processConn_inv (side : Nat) (st : List Int × List Nat) (conn : Nat)
    (hinv : MazeInv side st.1 st.2) (hconn : conn / 2 < side * side) :
    MazeInv side (processConn side st conn).1 (processConn side st conn).2 ∧
    (∀ c, connJoined side st.1 c → connJoined side (processConn side st conn).1 c) ∧
    connJoined side (processConn side st conn).1 conn := by
  obtain ⟨hufLen, hmazeLen, hwf, hpart, hcount, hacyc⟩ := hinv
  rw [processConn_eq]
  by_cases hpar : conn % 2 = 1
  · rw [if_pos hpar]
    by_cases hleft : (conn / 2) % side = 0
    · rw [if_pos hleft]
      exact ⟨⟨hufLen, hmazeLen, hwf, hpart, hcount, hacyc⟩, fun c h => h,
        ⟨fun _ h2 => absurd hleft h2, fun h0 _ => absurd h0 (by omega)⟩⟩
    · rw [if_neg hleft]
      have hb : conn / 2 - 1 < side * side := by omega
      have ha' : conn / 2 < st.1.length := by rw [hufLen]; exact hconn
      have hb' : conn / 2 - 1 < st.1.length := by rw [hufLen]; exact hb
      obtain ⟨u1, u2, u3, u4⟩ := union_spec st.1 (conn/2) (conn/2 - 1) hwf ha' hb'
      cases hu : (unionIfDisconnected st.1 (conn/2) (conn/2 - 1)).1
      · rw [if_neg Bool.false_ne_true]
        obtain ⟨ueq, upres, uiffF⟩ := u3 hu
        refine ⟨⟨by rw [u1, hufLen], hmazeLen, u2, ?_, ?_, hacyc⟩,
          fun c hc => connJoined_of_rootD_eq side st.1 _ upres c hc,
          ⟨?_, fun h0 _ => absurd h0 (by omega)⟩⟩
        · intro a b
          rw [upres, upres]
          exact hpart a b
        · rw [rootFilter_congr (side*side) st.1 _ uiffF]
          exact hcount
        · intro _ _
          rw [upres, upres]
          exact ueq
      · rw [if_pos rfl]
        obtain ⟨hne, winner, loser, hwl, hloserlt, hcases, upres, uiff⟩ := u4 hu
        have hbit : st.2.getD (conn/2) 0 &&& BLOCKS_WEST ≠ 0 := by
          intro h0
          have hpos : 1 ≤ conn / 2 := by
            rcases Nat.eq_zero_or_pos (conn / 2) with h | h
            · rw [h] at hleft
              exact absurd (Nat.zero_mod side) hleft
            · exact h
          have hrel0 : mazeAdjRel side st.2 (conn/2) (conn/2 - 1) :=
            ⟨hconn, Or.inl ⟨by omega, hleft, h0⟩⟩
          have hadj : (mazeGraph side st.2).Adj ⟨conn/2, hconn⟩ ⟨conn/2 - 1, hb⟩ := by
            rw [mazeGraph, SimpleGraph.fromRel_adj]
            refine ⟨?_, Or.inl hrel0⟩
            simp only [ne_eq, Fin.mk.injEq]
            omega
          exact hne ((hpart _ _).mpr hadj.reachable)
        have hgeq := mazeGraph_set_west side st.2 (conn/2) hmazeLen hconn hb hleft hbit
        refine ⟨inv_update_true side st.1 _ st.2 _ (conn/2) (conn/2 - 1) hconn hb
            hufLen hmazeLen hwf u2 u1 (by rw [List.length_set]; exact hmazeLen)
            hpart hcount hacyc hne winner loser hwl hloserlt hcases upres uiff hgeq,
          fun c hc => connJoined_collapse side st.1 _ winner loser upres c hc,
          ⟨?_, fun h0 _ => absurd h0 (by omega)⟩⟩
        intro _ _
        rw [upres, upres]
        rcases hcases with ⟨h1, h2⟩ | ⟨h1, h2⟩
        · rw [if_neg (fun hc => hwl (h1.trans hc)), if_pos h2.symm]
          exact h1.symm
        · rw [if_pos h2.symm, if_neg (fun hc => hwl (h1.trans hc))]
          exact h1
  · rw [if_neg hpar]
    by_cases hbot : conn / 2 < side
    · rw [if_pos hbot]
      exact ⟨⟨hufLen, hmazeLen, hwf, hpart, hcount, hacyc⟩, fun c h => h,
        ⟨fun h1 _ => absurd h1 hpar, fun _ h2 => absurd h2 (by omega)⟩⟩
    · rw [if_neg hbot]
      have hge : side ≤ conn / 2 := by omega
      have hside1 : 1 ≤ side := by
        rcases Nat.eq_zero_or_pos side with h | h
        · subst h
          omega
        · exact h
      have hb : conn / 2 - side < side * side := by omega
      have ha' : conn / 2 < st.1.length := by rw [hufLen]; exact hconn
      have hb' : conn / 2 - side < st.1.length := by rw [hufLen]; exact hb
      obtain ⟨u1, u2, u3, u4⟩ := union_spec st.1 (conn/2) (conn/2 - side) hwf ha' hb'
      cases hu : (unionIfDisconnected st.1 (conn/2) (conn/2 - side)).1
      · rw [if_neg Bool.false_ne_true]
        obtain ⟨ueq, upres, uiffF⟩ := u3 hu
        refine ⟨⟨by rw [u1, hufLen], hmazeLen, u2, ?_, ?_, hacyc⟩,
          fun c hc => connJoined_of_rootD_eq side st.1 _ upres c hc,
          ⟨fun h1 _ => absurd h1 hpar, ?_⟩⟩
        · intro a b
          rw [upres, upres]
          exact hpart a b
        · rw [rootFilter_congr (side*side) st.1 _ uiffF]
          exact hcount
        · intro _ _
          rw [upres, upres]
          exact ueq
      · rw [if_pos rfl]
        obtain ⟨hne, winner, loser, hwl, hloserlt, hcases, upres, uiff⟩ := u4 hu
        have hbit : st.2.getD (conn/2) 0 &&& BLOCKS_SOUTH ≠ 0 := by
          intro h0
          have hrel0 : mazeAdjRel side st.2 (conn/2) (conn/2 - side) :=
            ⟨hconn, Or.inr ⟨by omega, hge, h0⟩⟩
          have hadj : (mazeGraph side st.2).Adj ⟨conn/2, hconn⟩ ⟨conn/2 - side, hb⟩ := by
            rw [mazeGraph, SimpleGraph.fromRel_adj]
            refine ⟨?_, Or.inl hrel0⟩
            simp only [ne_eq, Fin.mk.injEq]
            omega
          exact hne ((hpart _ _).mpr hadj.reachable)
        have hgeq := mazeGraph_set_south side st.2 (conn/2) hmazeLen hconn hb hge hbit
        refine ⟨inv_update_true side st.1 _ st.2 _ (conn/2) (conn/2 - side) hconn hb
            hufLen hmazeLen hwf u2 u1 (by rw [List.length_set]; exact hmazeLen)
            hpart hcount hacyc hne winner loser hwl hloserlt hcases upres uiff hgeq,
          fun c hc => connJoined_collapse side st.1 _ winner loser upres c hc,
          ⟨fun h1 _ => absurd h1 hpar, ?_⟩⟩
        intro _ _
        rw [upres, upres]
        rcases hcases with ⟨h1, h2⟩ | ⟨h1, h2⟩
        · rw [if_neg (fun hc => hwl (h1.trans hc)), if_pos h2.symm]
          exact h1.symm
        · rw [if_pos h2.symm, if_neg (fun hc => hwl (h1.trans hc))]
          exact h1

end Minotaur

namespace Minotaur

/-! ### Folding the whole shuffled pass -/

theorem fold_inv (side : Nat) : ∀ (L : List Nat) (st : List Int × List Nat),
    (∀ c ∈ L, c / 2 < side * side) →
    MazeInv side st.1 st.2 →
    MazeInv side (L.foldl (processConn side) st).1 (L.foldl (processConn side) st).2 ∧
    (∀ c, connJoined side st.1 c → connJoined side (L.foldl (processConn side) st).1 c) ∧
    (∀ c ∈ L, connJoined side (L.foldl (processConn side) st).1 c)
  | [], st, _, hinv => ⟨hinv, fun _ h => h, fun c hc => absurd hc (List.not_mem_nil c)⟩
  | c :: L, st, hmem, hinv => by
    obtain ⟨h1, h2, h3⟩ := processConn_inv side st c hinv (hmem c (List.mem_cons_self c L))
    obtain ⟨i1, i2, i3⟩ := fold_inv side L (processConn side st c)
      (fun c' hc' => hmem c' (List.mem_cons_of_mem _ hc')) h1
    refine ⟨i1, fun c' hc' => i2 c' (h2 c' hc'), ?_⟩
    intro c' hc'
    rcases List.mem_cons.mp hc' with rfl | hc'
    · exact i2 c' h3
    · exact i3 c' hc'

theorem initial_uf_isRoot (side : Nat) :
    ∀ i, isRoot (List.replicate (side*side) (-1 : Int)) i := by
  intro i
  show parentOf _ i < 0
  unfold parentOf
  rw [getD_replicate']
  split <;> decide

theorem initial_inv (side : Nat) :
    MazeInv side (List.replicate (side*side) (-1)) (initialMaze side) := by
  have hroot := initial_uf_isRoot side
  have hEF : (mazeGraph side (initialMaze side)).edgeFinset = ∅ := by
    ext e
    refine Sym2.ind (fun x y => ?_) e
    rw [SimpleGraph.mem_edgeFinset, SimpleGraph.mem_edgeSet]
    simp only [Finset.not_mem_empty, iff_false]
    intro hadj
    rw [mazeGraph, SimpleGraph.fromRel_adj] at hadj
    rcases hadj.2 with h | h
    · exact mazeAdjRel_initial side _ _ h
    · exact mazeAdjRel_initial side _ _ h
  refine ⟨List.length_replicate _ _, initialMaze_length side, ?_, ?_, ?_, ?_⟩
  · intro i hi
    constructor
    · intro hpos
      have h2 : parentOf (List.replicate (side*side) (-1 : Int)) i < 0 := hroot i
      omega
    · rw [findN_isRoot_id _ i (hroot i)]
      exact hroot i
  · intro a b
    rw [mazeGraph_initial, SimpleGraph.reachable_bot,
      rootD_of_isRoot _ _ (hroot ↑a), rootD_of_isRoot _ _ (hroot ↑b)]
    exact ⟨fun h => Fin.ext h, fun h => congrArg Fin.val h⟩
  · rw [hEF]
    rw [Finset.filter_true_of_mem (fun x _ => hroot x)]
    simp
  · have h0 : mazeGraph side (initialMaze side) = ⊥ := mazeGraph_initial side
    rw [h0]
    exact SimpleGraph.isAcyclic_bot

/-! ### The shuffled sequence is a permutation of the candidate list -/

theorem filterMap_getElem_range {α : Type} (l : List α) :
    (List.range l.length).filterMap (fun i => l[i]?) = l := by
  induction l with
  | nil => rfl
  | cons x xs ih =>
    rw [List.length_cons, List.range_succ_eq_map, List.filterMap_cons]
    have h0 : (x :: xs)[0]? = some x := List.getElem?_cons_zero
    rw [h0]
    have h1 : List.filterMap (fun i => (x :: xs)[i]?) (List.map Nat.succ (List.range xs.length)) =
        List.filterMap (fun i => xs[i]?) (List.range xs.length) := by
      rw [List.filterMap_map]
      congr 1
      funext i
      show (x :: xs)[i + 1]? = xs[i]?
      exact List.getElem?_cons_succ
    rw [h1, ih]

theorem shuffledSeq_perm (arr : List Nat) (keys : Nat → Int) :
    (shuffledSeq arr keys).Perm arr := by
  unfold shuffledSeq shuffledOrder
  have hperm := (List.perm_insertionSort
    (fun a b => keys a ≤ keys b) (List.range arr.length)).filterMap
    (fun i => arr[i]?)
  rw [filterMap_getElem_range arr] at hperm
  exact hperm

/-! ### The candidate graph is connected (when the corridor is shorter
than the side) -/

theorem joined_south (side corridor : Nat) (uf : List Int)
    (hall : ∀ c ∈ connectionsToCheck side corridor, connJoined side uf c)
    (i : Nat) (hi : i < side*side) (hge : side ≤ i) :
    rootD uf i = rootD uf (i - side) := by
  have h := (hall (2*i) (by
    rw [mem_connectionsToCheck]
    exact ⟨i, hi, Or.inl rfl⟩)).2 (by omega) (by omega)
  have e : (2*i)/2 = i := by omega
  rw [e] at h
  exact h

theorem joined_west (side corridor : Nat) (uf : List Int)
    (hall : ∀ c ∈ connectionsToCheck side corridor, connJoined side uf c)
    (i : Nat) (hi : i < side*side) (hmod : i % side ≠ 0)
    (hnc : ¬ corridorCell side corridor i) :
    rootD uf i = rootD uf (i - 1) := by
  have e : (2*i+1)/2 = i := by omega
  have h := (hall (2*i+1) (by
    rw [mem_connectionsToCheck]
    exact ⟨i, hi, Or.inr ⟨rfl, hnc⟩⟩)).1 (by omega) (by rw [e]; exact hmod)
  rw [e] at h
  exact h

theorem all_rootD_eq (side corridor : Nat) (uf : List Int)
    (hcorr : corridor < side)
    (hall : ∀ c ∈ connectionsToCheck side corridor, connJoined side uf c) :
    ∀ i, i < side * side → rootD uf i = rootD uf 0 := by
  have hside : 1 ≤ side := by omega
  have hTe : (side - 1) * side + side = side * side := by
    have h2 : side - 1 + 1 = side := by omega
    calc (side - 1) * side + side = ((side - 1) + 1) * side := by ring
      _ = side * side := by rw [h2]
  have hcol : ∀ i, i < side * side → rootD uf i = rootD uf (i % side) := by
    intro i
    induction i using Nat.strong_induction_on with
    | _ i ih =>
      intro hi
      by_cases hlt : i < side
      · rw [Nat.mod_eq_of_lt hlt]
      · have hge : side ≤ i := by omega
        have h1 := joined_south side corridor uf hall i hi hge
        have h2 := ih (i - side) (by omega) (by omega)
        rw [h1, h2, Nat.mod_eq_sub_mod hge]
  have htop : ∀ x, x < side →
      rootD uf ((side-1)*side + x) = rootD uf ((side-1)*side) := by
    intro x
    induction x with
    | zero => intro _; rfl
    | succ x ihx =>
      intro hx
      have hT : (side-1)*side + (x+1) < side*side := by omega
      have hmod : ((side-1)*side + (x+1)) % side = x+1 := by
        rw [Nat.add_comm, Nat.add_mul_mod_self_right]
        exact Nat.mod_eq_of_lt hx
      have hnc : ¬ corridorCell side corridor ((side-1)*side + (x+1)) := by
        rintro ⟨-, hlt2⟩
        have hmul : corridor * side ≤ (side-1)*side :=
          Nat.mul_le_mul_right side (by omega)
        omega
      have hw := joined_west side corridor uf hall ((side-1)*side + (x+1)) hT
        (by rw [hmod]; omega) hnc
      have e2 : (side-1)*side + (x+1) - 1 = (side-1)*side + x := by omega
      rw [hw, e2]
      exact ihx (by omega)
  intro i hi
  have hx : i % side < side := Nat.mod_lt i (by omega)
  have hTx : (side-1)*side + (i % side) < side*side := by omega
  have h1 := hcol i hi
  have h2 := hcol ((side-1)*side + (i % side)) hTx
  have h3 : ((side-1)*side + (i % side)) % side = i % side := by
    rw [Nat.add_comm, Nat.add_mul_mod_self_right]
    exact Nat.mod_eq_of_lt hx
  have h4 := htop (i % side) hx
  have h5 := hcol ((side-1)*side) (by omega)
  have h6 : ((side-1)*side) % side = 0 := Nat.mul_mod_left (side-1) side
  rw [h3] at h2
  rw [h6] at h5
  rw [h1, ← h2, h4, h5]

end Minotaur

namespace Minotaur

/-- For any corridor length shorter than the side, the generated maze is a
spanning tree of the cell grid. -/
theorem makeMaze_isTree (side corridor : Nat) (keys : Nat → Int) (hcorr : corridor < side) :
    (mazeGraph side (makeMaze side corridor keys)).IsTree ∧
    (mazeGraph side (makeMaze side corridor keys)).edgeFinset.card = side * side - 1 := by
  have hn : 0 < side * side := Nat.mul_pos (by omega) (by omega)
  have hmemL : ∀ c ∈ shuffledSeq (connectionsToCheck side corridor) keys,
      c / 2 < side * side := by
    intro c hc
    have hc2 := mem_shuffledSeq hc
    rw [mem_connectionsToCheck] at hc2
    obtain ⟨i, hi, h | ⟨h, -⟩⟩ := hc2 <;> omega
  obtain ⟨hinv, -, hjoinL⟩ := fold_inv side
    (shuffledSeq (connectionsToCheck side corridor) keys)
    (List.replicate (side*side) (-1), initialMaze side) hmemL (initial_inv side)
  obtain ⟨hufLen, hmazeLen, hwf, hpart, hcount, hacyc⟩ := hinv
  have hallc : ∀ c ∈ connectionsToCheck side corridor,
      connJoined side ((shuffledSeq (connectionsToCheck side corridor) keys).foldl (processConn side) (List.replicate (side*side) (-1), initialMaze side)).1 c := by
    intro c hc
    exact hjoinL c ((shuffledSeq_perm (connectionsToCheck side corridor) keys).symm.subset hc)
  have hall0 := all_rootD_eq side corridor ((shuffledSeq (connectionsToCheck side corridor) keys).foldl (processConn side) (List.replicate (side*side) (-1), initialMaze side)).1 hcorr hallc
  have hconn : (mazeGraph side (makeMaze side corridor keys)).Connected := by
    rw [SimpleGraph.connected_iff]
    refine ⟨fun u v => (hpart u v).mp ?_, ⟨⟨0, hn⟩⟩⟩
    rw [hall0 ↑u u.isLt, hall0 ↑v v.isLt]
  have hr0lt : rootD ((shuffledSeq (connectionsToCheck side corridor) keys).foldl (processConn side) (List.replicate (side*side) (-1), initialMaze side)).1 0 < ((shuffledSeq (connectionsToCheck side corridor) keys).foldl (processConn side) (List.replicate (side*side) (-1), initialMaze side)).1.length :=
    rootD_lt ((shuffledSeq (connectionsToCheck side corridor) keys).foldl (processConn side) (List.replicate (side*side) (-1), initialMaze side)).1 hwf 0 (by rw [hufLen]; exact hn)
  have hfilter : (Finset.range (side*side)).filter
      (fun i => isRoot ((shuffledSeq (connectionsToCheck side corridor) keys).foldl (processConn side) (List.replicate (side*side) (-1), initialMaze side)).1 i) = {rootD ((shuffledSeq (connectionsToCheck side corridor) keys).foldl (processConn side) (List.replicate (side*side) (-1), initialMaze side)).1 0} := by
    ext x
    rw [Finset.mem_filter, Finset.mem_range, Finset.mem_singleton]
    constructor
    · rintro ⟨hx, hr⟩
      have h1 : rootD ((shuffledSeq (connectionsToCheck side corridor) keys).foldl (processConn side) (List.replicate (side*side) (-1), initialMaze side)).1 x = x := rootD_of_isRoot _ x hr
      rw [← h1, hall0 x hx]
    · rintro rfl
      exact ⟨by omega, rootD_isRoot _ hwf 0 (by rw [hufLen]; exact hn)⟩
  have hE : (mazeGraph side (makeMaze side corridor keys)).edgeFinset.card =
      side * side - 1 := by
    show (mazeGraph side ((shuffledSeq (connectionsToCheck side corridor) keys).foldl
      (processConn side) (List.replicate (side*side) (-1), initialMaze side)).2).edgeFinset.card =
      side * side - 1
    have hc2 := hcount
    rw [hfilter, Finset.card_singleton] at hc2
    omega
  exact ⟨(SimpleGraph.isTree_iff _).mpr ⟨hconn, hacyc⟩, hE⟩

end Minotaur

namespace Minotaur

/-- C1 (counterexample): at the odd side `3` (with the source's corridor
constant `END_HALLWAY_LENGTH = 6` the whole grid lies in the exit-corridor
region, so no west candidate survives) the output is NOT a spanning tree:
it has 6 edges instead of 3·3 − 1 = 8, and is disconnected. -/
theorem C1_counterexample :
    ¬ ((mazeGraph 3 (makeMaze 3 END_HALLWAY_LENGTH (fun _ => 0))).IsTree ∧
       (mazeGraph 3 (makeMaze 3 END_HALLWAY_LENGTH (fun _ => 0))).edgeFinset.card =
         3 * 3 - 1) :=
  fun h => absurd h.2 (by decide)

/-- C1 (amended): for every odd side ≥ 3 that also exceeds the source's
exit-corridor constant `END_HALLWAY_LENGTH = 6` (so: odd side ≥ 7, which
covers the source's `MAZE_SIDE = 41`), and for every sequence of random
keys, the maze graph — cells as nodes, cleared south/west bits of
non-boundary candidates as edges — is a tree (connected and acyclic) with
exactly `side² − 1` edges. -/
theorem C1_spanning_tree (side : Nat) (keys : Nat → Int)
    (h1 : Odd side) (h2 : 3 ≤ side) (h3 : END_HALLWAY_LENGTH < side) :
    (mazeGraph side (makeMaze side END_HALLWAY_LENGTH keys)).IsTree ∧
    (mazeGraph side (makeMaze side END_HALLWAY_LENGTH keys)).edgeFinset.card =
      side * side - 1 :=
  makeMaze_isTree side END_HALLWAY_LENGTH keys h3

/-- C1 (witness): the amended statement instantiated at side 7 with the
all-equal key stream. -/
theorem C1_witness :
    (Odd 7 ∧ 3 ≤ 7 ∧ END_HALLWAY_LENGTH < 7) ∧
    ((mazeGraph 7 (makeMaze 7 END_HALLWAY_LENGTH (fun _ => 0))).IsTree ∧
     (mazeGraph 7 (makeMaze 7 END_HALLWAY_LENGTH (fun _ => 0))).edgeFinset.card =
       7 * 7 - 1) :=
  ⟨⟨⟨3, by omega⟩, by omega, by decide⟩,
   C1_spanning_tree 7 (fun _ => 0) ⟨3, by omega⟩ (by omega) (by decide)⟩

end Minotaur
